import Mathlib

/-!
Verification development for the eeg-sonify repository.

The numeric pipeline (src/modules/eeg_simulator.py, signal_processor.py,
sonifier.py) is shallowly embedded here.  Floating-point values are
idealised as exact rationals, extended with the IEEE special values
NaN, +Inf and -Inf, because the behaviour under scrutiny (division by
zero producing NaN, NaN propagation through the synthesis chain) is
exact in IEEE arithmetic and does not depend on rounding.  The one
place where binary64 rounding is observable — the sample count of
np.arange(0, duration, 1/rate), whose rounded step can yield one extra
sample — is modelled bit-faithfully with round-to-nearest-even.  Library
calls (numpy reductions, np.interp, scipy.signal.butter / filtfilt)
are translated from their implementations' documented semantics; the
repository's own functions are translated line by line.  Randomness
(np.random draws) and transcendental evaluations (sin, pi, sawtooth,
square, Gaussian windows, filter-design outputs) are injected as
explicit parameters, as the spec requires the random source to be
injectable; every theorem below holds for all values of these
parameters unless it evaluates one concretely.
-/

namespace EegSonify

/-- An IEEE double idealised: an exact rational, or NaN, or a signed
infinity.  Signed zeros are conflated with zero (they are never
distinguished by the code under study). -/
inductive FV where
  | num (q : ℚ)
  | nan
  | pinf
  | ninf
  deriving DecidableEq

/-- IEEE addition on idealised doubles. -/
def fvAdd : FV → FV → FV
  | FV.nan, _ => FV.nan
  | _, FV.nan => FV.nan
  | FV.num a, FV.num b => FV.num (a + b)
  | FV.num _, FV.pinf => FV.pinf
  | FV.num _, FV.ninf => FV.ninf
  | FV.pinf, FV.num _ => FV.pinf
  | FV.ninf, FV.num _ => FV.ninf
  | FV.pinf, FV.pinf => FV.pinf
  | FV.ninf, FV.ninf => FV.ninf
  | FV.pinf, FV.ninf => FV.nan
  | FV.ninf, FV.pinf => FV.nan

/-- IEEE negation. -/
def fvNeg : FV → FV
  | FV.num a => FV.num (-a)
  | FV.nan => FV.nan
  | FV.pinf => FV.ninf
  | FV.ninf => FV.pinf

/-- IEEE subtraction. -/
def fvSub (x y : FV) : FV := fvAdd x (fvNeg y)

/-- IEEE multiplication (0 * inf = NaN). -/
def fvMul : FV → FV → FV
  | FV.nan, _ => FV.nan
  | _, FV.nan => FV.nan
  | FV.num a, FV.num b => FV.num (a * b)
  | FV.num a, FV.pinf => if a = 0 then FV.nan else if 0 < a then FV.pinf else FV.ninf
  | FV.num a, FV.ninf => if a = 0 then FV.nan else if 0 < a then FV.ninf else FV.pinf
  | FV.pinf, FV.num b => if b = 0 then FV.nan else if 0 < b then FV.pinf else FV.ninf
  | FV.ninf, FV.num b => if b = 0 then FV.nan else if 0 < b then FV.ninf else FV.pinf
  | FV.pinf, FV.pinf => FV.pinf
  | FV.ninf, FV.ninf => FV.pinf
  | FV.pinf, FV.ninf => FV.ninf
  | FV.ninf, FV.pinf => FV.ninf

/-- IEEE division (0/0 = NaN, x/0 = signed inf, inf/inf = NaN). -/
def fvDiv : FV → FV → FV
  | FV.nan, _ => FV.nan
  | _, FV.nan => FV.nan
  | FV.num a, FV.num b =>
      if b = 0 then (if a = 0 then FV.nan else if 0 < a then FV.pinf else FV.ninf)
      else FV.num (a / b)
  | FV.num _, FV.pinf => FV.num 0
  | FV.num _, FV.ninf => FV.num 0
  | FV.pinf, FV.num b => if 0 ≤ b then FV.pinf else FV.ninf
  | FV.ninf, FV.num b => if 0 ≤ b then FV.ninf else FV.pinf
  | FV.pinf, _ => FV.nan
  | FV.ninf, _ => FV.nan

instance : Add FV := ⟨fvAdd⟩
instance : Neg FV := ⟨fvNeg⟩
instance : Sub FV := ⟨fvSub⟩
instance : Mul FV := ⟨fvMul⟩
instance : Div FV := ⟨fvDiv⟩

/-- IEEE absolute value. -/
def fvAbs : FV → FV
  | FV.num a => FV.num |a|
  | FV.nan => FV.nan
  | _ => FV.pinf

/-- Is the value NaN?  (Mirrors npy_isnan.) -/
def fvIsNan : FV → Bool
  | FV.nan => true
  | _ => false

/-- Is the value an ordinary (finite) number? -/
def fvIsNum : FV → Bool
  | FV.num _ => true
  | _ => false

/-- IEEE equality comparison (NaN compares unequal to everything,
including itself).  This is the `==` the C implementations use. -/
def fvEq : FV → FV → Bool
  | FV.num a, FV.num b => a = b
  | FV.pinf, FV.pinf => true
  | FV.ninf, FV.ninf => true
  | _, _ => false

/-- Pairwise maximum with numpy's `np.maximum` semantics: NaN
propagates; infinities are ordered around the finite numbers. -/
def fvMax : FV → FV → FV
  | FV.nan, _ => FV.nan
  | _, FV.nan => FV.nan
  | FV.num a, FV.num b => FV.num (max a b)
  | FV.pinf, _ => FV.pinf
  | _, FV.pinf => FV.pinf
  | FV.ninf, y => y
  | x, FV.ninf => x

/-- Pairwise minimum with numpy's `np.minimum` semantics. -/
def fvMin : FV → FV → FV
  | FV.nan, _ => FV.nan
  | _, FV.nan => FV.nan
  | FV.num a, FV.num b => FV.num (min a b)
  | FV.ninf, _ => FV.ninf
  | _, FV.ninf => FV.ninf
  | FV.pinf, y => y
  | x, FV.pinf => x

/-- Lift a finite real function (sin, sawtooth, square, modelled by an
opaque rational approximation) to idealised doubles: finite in, finite
out; NaN and ±Inf map to NaN, as numpy's trigonometric and scipy's
waveform ufuncs do. -/
def liftNum (f : ℚ → ℚ) : FV → FV
  | FV.num q => FV.num (f q)
  | _ => FV.nan

/-- np.sqrt: NaN for negative (and NaN) arguments, +Inf preserved; the
nonnegative finite values go through an opaque approximation `f`. -/
def fvSqrt (f : ℚ → ℚ) : FV → FV
  | FV.num q => if q < 0 then FV.nan else FV.num (f q)
  | FV.pinf => FV.pinf
  | _ => FV.nan

/-- Errors surfaced by the numpy / scipy layers (the repository itself
raises nothing). -/
inductive NpErr where
  /-- np.min / np.max on a zero-size array. -/
  | emptyReduce
  /-- np.interp with an empty array of sample points. -/
  | emptyInterp
  /-- scipy iirfilter: "filter critical frequencies must be greater than 0". -/
  | freqNonPos
  /-- scipy iirfilter: "Wn[0] must be less than Wn[1]". -/
  | wnOrder
  /-- scipy iirfilter: "Digital filter critical frequencies must be 0 < Wn < 1". -/
  | digitalWn
  /-- scipy filtfilt: input vector must be longer than padlen. -/
  | padlenTooLong
  /-- np.random.choice: sample larger than population with replace=False. -/
  | choiceTooSmall
  /-- Python UnboundLocalError: local variable referenced before assignment. -/
  | unboundLocal
  deriving DecidableEq

/-- Sum of a list of idealised doubles (numpy reduction order). -/
def fvSum (l : List FV) : FV := l.foldl fvAdd (FV.num 0)

/-- np.max reduction: raises on a zero-size array, otherwise folds
`np.maximum` (NaN-propagating). -/
def npMax : List FV → Except NpErr FV
  | [] => Except.error NpErr.emptyReduce
  | x :: xs => Except.ok (xs.foldl fvMax x)

/-- np.min reduction. -/
def npMin : List FV → Except NpErr FV
  | [] => Except.error NpErr.emptyReduce
  | x :: xs => Except.ok (xs.foldl fvMin x)

/-- np.cumsum: running partial sums. -/
def fvCumsum (l : List FV) : List FV := (l.scanl fvAdd (FV.num 0)).drop 1

/-- np.diff: first difference, one element shorter. -/
def npDiff : List FV → List FV
  | a :: b :: rest => fvSub b a :: npDiff (b :: rest)
  | _ => []

/-- np.var: mean of squared deviations from the mean (population
variance, numpy's default ddof=0).  On a zero-size array this is 0/0,
i.e. NaN, matching numpy's warning-but-no-exception behaviour. -/
def npVar (l : List FV) : FV :=
  let mean := fvDiv (fvSum l) (FV.num l.length)
  fvDiv (fvSum (l.map (fun v => fvMul (fvSub v mean) (fvSub v mean)))) (FV.num l.length)

/-- One query point of np.interp over sample points `xp` with data
`fp`, mirroring numpy's compiled_base.c arr_interp for the shapes the
code produces: clamp below the first and above the last sample point,
return `fp j` at an exact hit, otherwise the left-anchored slope
formula, with numpy's NaN fallback (re-anchor right; if still NaN and
the two data values compare `==`, return the left one). -/
def interpGo : List ℚ → List FV → ℚ → FV
  | x0 :: x1 :: xps, f0 :: f1 :: fps, x =>
      if x < x1 then
        if x ≤ x0 then f0
        else
          let slope := fvDiv (fvSub f1 f0) (FV.num (x1 - x0))
          let r := fvAdd (fvMul slope (FV.num (x - x0))) f0
          if fvIsNan r then
            let r2 := fvAdd (fvMul slope (FV.num (x - x1))) f1
            if fvIsNan r2 ∧ fvEq f0 f1 then f0 else r2
          else r
      else interpGo (x1 :: xps) (f1 :: fps) x
  | _ :: _, f0 :: _, _ => f0
  | _, _, _ => FV.nan

/-- np.interp: raises ValueError on an empty array of sample points,
otherwise interpolates each query point. -/
def npInterp (xs : List ℚ) (xp : List ℚ) (fp : List FV) : Except NpErr (List FV) :=
  if xp.isEmpty then Except.error NpErr.emptyInterp
  else Except.ok (xs.map (interpGo xp fp))

/-- np.linspace with endpoint=True: `m` evenly spaced samples from `a`
to `b`; a single sample is just `a`. -/
def npLinspace (a b : ℚ) (m : ℕ) : List ℚ :=
  if m = 0 then []
  else if m = 1 then [a]
  else (List.range m).map (fun (j : ℕ) => a + (b - a) * (j : ℚ) / ((m : ℚ) - 1))

/-- Python int(): truncation toward zero, clamped at zero here because
it only feeds np.arange / np.zeros which treat negatives as empty. -/
def pyIntLen (q : ℚ) : ℕ := (⌊q⌋ : ℤ).toNat

/-- floor(log2 n) for 1 ≤ n < 2^128 (and 0 at 0): the largest k with
2^k ≤ n.  Every quantity this model feeds it stays far below 2^128. -/
def floorLog2 (n : ℕ) : ℕ :=
  (List.range 128).foldl (fun acc k => if 2 ^ (k + 1) ≤ n then k + 1 else acc) 0

/-- Round a/b (b > 0) to the nearest integer, ties to even — IEEE 754's
default rounding rule applied to a scaled significand. -/
def rne (a b : ℕ) : ℕ :=
  let q := a / b
  let r := a % b
  if 2 * r < b then q
  else if b < 2 * r then q + 1
  else if q % 2 = 0 then q else q + 1

/-- The IEEE binary64 (double) value nearest to a/b, as an exact dyadic
rational encoded (m, s) meaning m/2^s: the quotient is scaled into
[2^52, 2^53), where c corrects the exponent estimate floorLog2 a -
floorLog2 b down by one when a/b falls below it, and the 53-bit
significand is rounded to nearest, ties to even.  The exponent stays
far inside the normal range for every value this development meets, so
overflow, underflow and subnormals do not arise and are not
modelled. -/
def fl64Pair (a b : ℕ) : ℕ × ℕ :=
  if a = 0 ∨ b = 0 then (0, 0)
  else
    let la := floorLog2 a
    let lb := floorLog2 b
    let c : ℕ := if a * 2 ^ lb < b * 2 ^ la then 1 else 0
    if la ≤ 52 + lb + c then
      (rne (a * 2 ^ (52 + lb + c - la)) b, 52 + lb + c - la)
    else
      (rne a (b * 2 ^ (la - (52 + lb + c))) * 2 ^ (la - (52 + lb + c)), 0)

/-- The exact rational value of an (m, s) dyadic pair. -/
def fl64Val (p : ℕ × ℕ) : ℚ := (p.1 : ℚ) / 2 ^ p.2

/-- len(np.arange(0, stop, step)) for an integer stop and a positive
double step m/2^s: numpy computes ceil((stop - start)/step) in double
arithmetic — the subtraction is exact here, the division is one
correctly rounded binary64 operation, and the ceiling of the resulting
double is exact (computed below as a ceiling division of the dyadic
quotient). -/
def arangeLen (stop : ℕ) (step : ℕ × ℕ) : ℕ :=
  let q := fl64Pair (stop * 2 ^ step.2) step.1
  (q.1 + 2 ^ q.2 - 1) / 2 ^ q.2

/-- np.arange(0, stop, step) for an integer stop and a positive double
step: ceil(stop/step) samples, the i-th filled as start + i*step — with
start = 0 that is one correctly rounded binary64 multiply of the exact
integer i by the step. -/
def npArange (stop : ℕ) (step : ℕ × ℕ) : List ℚ :=
  (List.range (arangeLen stop step)).map
    (fun (i : ℕ) => fl64Val (fl64Pair (i * step.1) (2 ^ step.2)))

/-- Elementwise addition of two equal-length buffers (numpy `+=`). -/
def zipAdd (a b : List FV) : List FV := List.zipWith fvAdd a b

/-- Elementwise product of a buffer with a rational envelope
(numpy `*=`). -/
def zipMulQ (a : List FV) (env : List ℚ) : List FV :=
  List.zipWith (fun v q => fvMul v (FV.num q)) a env

/-- Python slice assignment `l[i:i+len(vals)] = vals` (the code always
keeps the slice inside bounds). -/
def setSlice (l : List FV) (i : ℕ) (vals : List FV) : List FV :=
  l.take i ++ vals ++ l.drop (i + vals.length)

/-- scipy.signal.butter's parameter validation, translated from
scipy.signal.iirfilter's checks on the normalised critical frequencies
Wn = [low, high]: any Wn ≤ 0 raises; Wn[0] ≥ Wn[1] raises; for a
digital design any Wn outside (0, 1) raises. -/
def butterCheck (lo hi : ℚ) : Except NpErr Unit :=
  if lo ≤ 0 ∨ hi ≤ 0 then Except.error NpErr.freqNonPos
  else if hi ≤ lo then Except.error NpErr.wnOrder
  else if 1 ≤ lo ∨ 1 ≤ hi then Except.error NpErr.digitalWn
  else Except.ok ()

/-- The data scipy's filter design hands to filtfilt: numerator `b`,
denominator `a` (a 4th-order Butterworth band-pass in the code; the
coefficient values are opaque finite doubles, modelled as rationals),
and the steady-state initial conditions scipy.signal.lfilter_zi(b, a)
computes from them. -/
structure Coeffs where
  b : List ℚ
  a : List ℚ
  zi : List ℚ

/-- One direct-form-II-transposed step of scipy.signal.lfilter with
normalised coefficients `bn`, `an` and state `z`: emits
y = bn[0]*x + z[0] and the updated state. -/
def lfStep (bn an : List ℚ) (k : ℕ) (x : FV) (z : List FV) : FV × List FV :=
  let y := fvAdd (fvMul (FV.num bn.headI) x) (z.headD (FV.num 0))
  (y, (List.range k).map (fun i =>
    fvSub (fvAdd (fvMul (FV.num (bn.getD (i + 1) 0)) x) (z.getD (i + 1) (FV.num 0)))
      (fvMul (FV.num (an.getD (i + 1) 0)) y)))

/-- The recursion of scipy.signal.lfilter over the input samples. -/
def lfilterGo (bn an : List ℚ) (k : ℕ) : List FV → List FV → List FV
  | _, [] => []
  | z, x :: xs =>
    let s := lfStep bn an k x z
    s.1 :: lfilterGo bn an k s.2 xs

/-- scipy.signal.lfilter(b, a, x, zi): both coefficient vectors are
normalised by a[0], then the direct-form-II-transposed recurrence runs
with initial state `zi`. -/
def lfilter (b a : List ℚ) (zi : List FV) (xs : List FV) : List FV :=
  let a0 := a.headI
  lfilterGo (b.map (fun c => c / a0)) (a.map (fun c => c / a0))
    (max a.length b.length - 1) zi xs

/-- scipy's odd extension of a signal by `e` samples at each end:
reflect around the endpoint values. -/
def oddExt (e : ℕ) (x : List FV) : List FV :=
  let x0 := x.headD (FV.num 0)
  let xl := x.getLastD (FV.num 0)
  ((List.range e).map (fun i =>
      fvSub (fvMul (FV.num 2) x0) (x.getD (e - i) (FV.num 0))))
    ++ x ++
    ((List.range e).map (fun i =>
      fvSub (fvMul (FV.num 2) xl) (x.getD (x.length - 2 - i) (FV.num 0))))

/-- scipy.signal.filtfilt with its defaults (padtype='odd',
padlen=3*max(len(a), len(b))): raise if the input is not longer than
padlen; odd-extend; forward filter with initial state zi*x[0]; reverse;
filter again with initial state zi*y[-1]; reverse; strip the padding. -/
def filtfilt (c : Coeffs) (x : List FV) : Except NpErr (List FV) :=
  let e := 3 * max c.a.length c.b.length
  if x.length ≤ e then Except.error NpErr.padlenTooLong
  else
    let ext := oddExt e x
    let y1 := lfilter c.b c.a (c.zi.map (fun q => fvMul (FV.num q) (ext.headD (FV.num 0)))) ext
    let y2 := (lfilter c.b c.a
      (c.zi.map (fun q => fvMul (FV.num q) (y1.getLastD (FV.num 0)))) y1.reverse).reverse
    Except.ok ((y2.drop e).take x.length)

/-! ### SignalProcessor (src/modules/signal_processor.py) -/

/-- SignalProcessor.apply_bandpass_filter: normalise the cutoffs by the
Nyquist frequency, design the 4th-order Butterworth band-pass (the
design outputs are the injected `design` function's coefficients, after
scipy's parameter validation), and filter with zero-phase filtfilt. -/
def applyBandpassFilter (rate : ℚ) (design : ℚ → ℚ → Coeffs)
    (eegData : List FV) (lowFreq highFreq : ℚ) : Except NpErr (List FV) := do
  let nyquist := (1 / 2 : ℚ) * rate
  let low := lowFreq / nyquist
  let high := highFreq / nyquist
  let _ ← butterCheck low high
  filtfilt (design lowFreq highFreq) eegData

/-- SignalProcessor.extract_frequency_bands: apply the band-pass for
each of the five canonical bands and return the named mapping in the
dict's insertion order. -/
def extractFrequencyBands (rate : ℚ) (design : ℚ → ℚ → Coeffs)
    (eegData : List FV) : Except NpErr (List (String × List FV)) := do
  let d ← applyBandpassFilter rate design eegData (1 / 2) 4
  let t ← applyBandpassFilter rate design eegData 4 8
  let a ← applyBandpassFilter rate design eegData 8 13
  let b ← applyBandpassFilter rate design eegData 13 30
  let g ← applyBandpassFilter rate design eegData 30 100
  pure [("delta", d), ("theta", t), ("alpha", a), ("beta", b), ("gamma", g)]

/-- SignalProcessor.compute_hjorth_parameters: first and second
differences padded back to the input length with zeros, then
activity = var(x), mobility = sqrt(var(d1)/activity),
complexity = sqrt(var(d2)/var(d1)) / mobility.  `sqrtQ` is the opaque
finite square-root approximation. -/
def computeHjorthParameters (sqrtQ : ℚ → ℚ) (eegData : List FV) : FV × FV × FV :=
  let diff1 := npDiff eegData ++ [FV.num 0]
  let diff2 := npDiff (npDiff eegData) ++ [FV.num 0, FV.num 0]
  let activity := npVar eegData
  let mobility := fvSqrt sqrtQ (fvDiv (npVar diff1) activity)
  let complexity := fvDiv (fvSqrt sqrtQ (fvDiv (npVar diff2) (npVar diff1))) mobility
  (activity, mobility, complexity)

/-! ### EEGSonifier (src/modules/sonifier.py) -/

/-- The EEGSonifier instance state plus the opaque numeric inputs its
methods consume: the audio and EEG sampling rates from the
constructor, the double value of np.pi, the finite approximations of
np.sin, scipy.signal.sawtooth (default width and width 0.5),
scipy.signal.square (duty 0.5), and the gamma branch's
np.random.normal(0, 0.5) draw at each sample index. -/
structure SonCfg where
  audioRate : ℚ
  eegRate : ℚ
  piQ : ℚ
  sinQ : ℚ → ℚ
  sawQ : ℚ → ℚ
  sawHalfQ : ℚ → ℚ
  squareQ : ℚ → ℚ
  noiseQ : ℕ → ℚ

/-- The uniform time axis np.arange(n)/rate used by the sonifier for
both the EEG-rate and audio-rate grids. -/
def timeAxis (rate : ℚ) (n : ℕ) : List ℚ :=
  (List.range n).map (fun (i : ℕ) => (i : ℚ) / rate)

/-- Min-max normalisation as written in the sonifier:
(x - np.min(x)) / (np.max(x) - np.min(x)), with no guard against a
constant buffer; the reductions raise on an empty buffer. -/
def minmaxNorm (l : List FV) : Except NpErr (List FV) := do
  let mn ← npMin l
  let mx ← npMax l
  pure (l.map (fun v => fvDiv (fvSub v mn) (fvSub mx mn)))

/-- EEGSonifier.simple_tone_mapping: resample onto the audio time axis
by np.interp, min-max normalise, map to 100–1000 Hz, accumulate phase
with np.cumsum and emit 0.5*sin(phase). -/
def simpleToneMapping (cfg : SonCfg) (eegData : List FV) (duration : ℚ) :
    Except NpErr (List FV) := do
  let tEeg := timeAxis cfg.eegRate eegData.length
  let nAudio := pyIntLen (duration * cfg.audioRate)
  let tAudio := timeAxis cfg.audioRate nAudio
  let interp ← npInterp tAudio tEeg eegData
  let normalized ← minmaxNorm interp
  let freqMapped := normalized.map (fun v => fvAdd (FV.num 100) (fvMul v (FV.num 900)))
  let phase := fvCumsum (freqMapped.map (fun f =>
    fvDiv (fvMul (fvMul (FV.num 2) (FV.num cfg.piQ)) f) (FV.num cfg.audioRate)))
  pure (phase.map (fun p => fvMul (FV.num (1 / 2)) (liftNum cfg.sinQ p)))

/-- The frequency-modulated phase track common to every branch of the
multi-band loop: np.cumsum(2*pi*(base + normalized*dev)/audio_rate). -/
def bandPhase (cfg : SonCfg) (baseFreq dev : ℚ) (normalized : List FV) : List FV :=
  fvCumsum (normalized.map (fun v =>
    fvDiv (fvMul (fvMul (FV.num 2) (FV.num cfg.piQ))
      (fvAdd (FV.num baseFreq) (fvMul v (FV.num dev)))) (FV.num cfg.audioRate)))

/-- One iteration of EEGSonifier.multi_band_sonification's loop over
`enumerate(band_data.items())`.  The state is the running mix together
with the Python local `wave`, which is only assigned inside the five
name-checked branches: a first iteration with a non-canonical name
leaves it unbound (UnboundLocalError at `audio_data += wave`), and a
later one silently re-adds the previous iteration's wave. -/
def multiBandStep (cfg : SonCfg) (tAudio : List ℚ)
    (st : List FV × Option (List FV)) (entry : ℕ × String × List FV) :
    Except NpErr (List FV × Option (List FV)) := do
  let (i, bandName, bandSignal) := entry
  let tEeg := timeAxis cfg.eegRate bandSignal.length
  let interp ← npInterp tAudio tEeg bandSignal
  let normalized ← minmaxNorm interp
  let baseFreq : ℚ := 100 * ((i : ℚ) + 1)
  let wave :=
    if bandName = "delta" then
      some ((bandPhase cfg baseFreq 50 normalized).map (fun p =>
        fvMul (FV.num (15 / 100)) (liftNum cfg.sinQ p)))
    else if bandName = "theta" then
      some ((bandPhase cfg baseFreq 100 normalized).map (fun p =>
        fvMul (FV.num (1 / 10)) (liftNum cfg.sawHalfQ p)))
    else if bandName = "alpha" then
      some ((bandPhase cfg baseFreq 200 normalized).map (fun p =>
        fvMul (FV.num (1 / 10)) (liftNum cfg.squareQ p)))
    else if bandName = "beta" then
      some ((bandPhase cfg baseFreq 300 normalized).map (fun p =>
        fvMul (FV.num (1 / 20)) (liftNum cfg.sawQ p)))
    else if bandName = "gamma" then
      some (((bandPhase cfg baseFreq 400 normalized).enum).map (fun p =>
        fvMul (fvMul (FV.num (1 / 20)) (liftNum cfg.sinQ p.2))
          (fvAdd (FV.num (1 / 2)) (fvMul (FV.num (1 / 2)) (FV.num (cfg.noiseQ p.1))))))
    else st.2
  match wave with
  | none => Except.error NpErr.unboundLocal
  | some w => pure (zipAdd st.1 w, some w)

/-- EEGSonifier.multi_band_sonification: a fixed 10-second zero mix at
the audio rate, the per-band loop above, then the final peak
normalisation audio/np.max(np.abs(audio))*0.9 with no zero guard. -/
def multiBandSonification (cfg : SonCfg) (bandData : List (String × List FV)) :
    Except NpErr (List FV) := do
  let n := pyIntLen (10 * cfg.audioRate)
  let audioData := List.replicate n (FV.num 0)
  let tAudio := timeAxis cfg.audioRate n
  let res ← bandData.enum.foldlM (multiBandStep cfg tAudio) (audioData, none)
  let m ← npMax (res.1.map fvAbs)
  pure (res.1.map (fun v => fvMul (fvDiv v m) (FV.num (9 / 10))))

/-! ### EEGSimulator (src/modules/eeg_simulator.py) -/

/-- The EEGSimulator instance state plus the opaque numeric inputs its
generators consume.  `rate` and `duration` are the integer UI inputs.
`design` is the Butterworth design (opaque finite coefficients plus
lfilter_zi state).  `rng k i` is the i-th sample of the k-th
np.random.normal(0, 1) draw of a generator call — the injectable random
source the spec requires.  `gaussN1Q` holds scipy.signal.gaussian(50, 10),
`gaussSzQ w j` holds scipy.signal.gaussian(2*w, w/5)[j], `sawQ`/`piQ`
model scipy.signal.sawtooth and np.pi. -/
structure SimCfg where
  rate : ℕ
  duration : ℕ
  design : ℚ → ℚ → Coeffs
  rng : ℕ → ℕ → ℚ
  gaussN1Q : ℕ → ℚ
  gaussSzQ : ℕ → ℕ → ℚ
  sawQ : ℚ → ℚ
  piQ : ℚ

/-- The precomputed time array np.arange(0, duration, 1/sampling_rate)
from EEGSimulator.__init__; the step 1/sampling_rate is itself one
correctly rounded binary64 division of exact integer operands. -/
def simTime (cfg : SimCfg) : List ℚ := npArange cfg.duration (fl64Pair 1 cfg.rate)

/-- The k-th white-noise draw np.random.normal(0, 1, len(self.time)). -/
def noiseDraw (cfg : SimCfg) (k : ℕ) : List ℚ :=
  (List.range (simTime cfg).length).map (fun i => cfg.rng k i)

/-- EEGSimulator.generate_band_limited_noise: validate and design the
4th-order Butterworth band-pass for the normalised cutoffs, zero-phase
filter the white noise with filtfilt, scale by the amplitude. -/
def generateBandLimitedNoise (rate : ℚ) (design : ℚ → ℚ → Coeffs)
    (noise : List ℚ) (minFreq maxFreq amplitude : ℚ) : Except NpErr (List FV) := do
  let nyquist := (1 / 2 : ℚ) * rate
  let low := minFreq / nyquist
  let high := maxFreq / nyquist
  let _ ← butterCheck low high
  let filtered ← filtfilt (design minFreq maxFreq) (noise.map FV.num)
  pure (filtered.map (fun v => fvMul v (FV.num amplitude)))

/-- EEGSimulator.generate_normal_eeg: delta(0.3) + theta(0.4) +
alpha(1.0) + beta(0.2). -/
def generateNormalEeg (cfg : SimCfg) : Except NpErr (List FV) := do
  let delta ← generateBandLimitedNoise cfg.rate cfg.design (noiseDraw cfg 0) (1 / 2) 4 (3 / 10)
  let theta ← generateBandLimitedNoise cfg.rate cfg.design (noiseDraw cfg 1) 4 8 (2 / 5)
  let alpha ← generateBandLimitedNoise cfg.rate cfg.design (noiseDraw cfg 2) 8 13 1
  let beta ← generateBandLimitedNoise cfg.rate cfg.design (noiseDraw cfg 3) 13 30 (1 / 5)
  pure (zipAdd (zipAdd (zipAdd delta theta) alpha) beta)

/-- The vertex-wave pulse written into `wave[t:t+50]` in the N1
generator: signal.gaussian(50, 10) * 2. -/
def vertexPulse (cfg : SimCfg) : List FV :=
  (List.range 50).map (fun j => fvMul (FV.num (cfg.gaussN1Q j)) (FV.num 2))

/-- EEGSimulator.generate_sleep_stage_n1: theta(1.0) + alpha(0.3) plus
5 Gaussian vertex waves at the onsets
np.random.choice(len(time)-50, 5, replace=False), injected here as
`positions` (distinct values below len(time)-50); choice itself raises
when the population is smaller than the sample. -/
def generateSleepStageN1 (cfg : SimCfg) (positions : List ℕ) : Except NpErr (List FV) := do
  let theta ← generateBandLimitedNoise cfg.rate cfg.design (noiseDraw cfg 0) 4 8 1
  let alpha ← generateBandLimitedNoise cfg.rate cfg.design (noiseDraw cfg 1) 8 13 (3 / 10)
  let n := (simTime cfg).length
  if n < 55 then Except.error NpErr.choiceTooSmall
  else
    pure (positions.foldl (fun e t =>
      zipAdd e (setSlice (List.replicate n (FV.num 0)) t (vertexPulse cfg)))
      (zipAdd theta alpha))

/-- EEGSimulator.generate_sleep_stage_n3: delta(2.0) + theta(0.3). -/
def generateSleepStageN3 (cfg : SimCfg) : Except NpErr (List FV) := do
  let delta ← generateBandLimitedNoise cfg.rate cfg.design (noiseDraw cfg 0) (1 / 2) 4 2
  let theta ← generateBandLimitedNoise cfg.rate cfg.design (noiseDraw cfg 1) 4 8 (3 / 10)
  pure (zipAdd delta theta)

/-- The sawtooth burst written into `wave[t:t+100]` in the REM
generator: signal.sawtooth(2*pi*5*linspace(0, 1, 100)) * 0.5. -/
def sawtoothBurst (cfg : SimCfg) : List FV :=
  (npLinspace 0 1 100).map (fun q =>
    fvMul (FV.num (cfg.sawQ (2 * cfg.piQ * 5 * q))) (FV.num (1 / 2)))

/-- EEGSimulator.generate_rem_sleep: theta(1.0) + alpha(0.2) +
beta(0.3) plus 8 sawtooth bursts at the onsets
np.random.choice(len(time)-100, 8, replace=False). -/
def generateRemSleep (cfg : SimCfg) (positions : List ℕ) : Except NpErr (List FV) := do
  let theta ← generateBandLimitedNoise cfg.rate cfg.design (noiseDraw cfg 0) 4 8 1
  let alpha ← generateBandLimitedNoise cfg.rate cfg.design (noiseDraw cfg 1) 8 13 (1 / 5)
  let beta ← generateBandLimitedNoise cfg.rate cfg.design (noiseDraw cfg 2) 13 30 (3 / 10)
  let n := (simTime cfg).length
  if n < 108 then Except.error NpErr.choiceTooSmall
  else
    pure (positions.foldl (fun e t =>
      zipAdd e (setSlice (List.replicate n (FV.num 0)) t (sawtoothBurst cfg)))
      (zipAdd (zipAdd theta alpha) beta))

/-- The three-phase amplitude envelope of the seizure generator:
np.concatenate([linspace(0,1,int(n/5)), ones(int(n/5*3)),
linspace(1,0,int(n/5))]), zero-padded or truncated to exactly n. -/
def ampEnvelope (n : ℕ) : List ℚ :=
  let env := npLinspace 0 1 (n / 5) ++ List.replicate (3 * n / 5) 1 ++ npLinspace 1 0 (n / 5)
  if env.length < n then env ++ List.replicate (n - env.length) 0
  else env.take n

/-- The spike-wave complex of the seizure generator:
signal.gaussian(2*width, width/5) * 2 - 1. -/
def seizureSpike (cfg : SimCfg) (width : ℕ) : List FV :=
  (List.range (2 * width)).map (fun j => FV.num (cfg.gaussSzQ width j * 2 - 1))

/-- One iteration of the seizure spike-train loop: compute the spike
center int(i/3*rate), skip silently when the window [center-width,
center+width) would leave the buffer or the width is zero, otherwise
add the spike into the train. -/
def seizureStep (cfg : SimCfg) (n width : ℕ) (c : List FV) (i : ℕ) : List FV :=
  let center := i * cfg.rate / 3
  if center < width ∨ n ≤ center + width ∨ width = 0 then c
  else zipAdd c (setSlice (List.replicate n (FV.num 0)) (center - width) (seizureSpike cfg width))

/-- EEGSimulator.generate_seizure_activity: broadband base noise
(0.5–30 Hz, amplitude 0.2) plus a 3 Hz spike-wave train of duration*3
spikes, scaled by the three-phase envelope and by 3, added to the
base. -/
def generateSeizureActivity (cfg : SimCfg) : Except NpErr (List FV) := do
  let base ← generateBandLimitedNoise cfg.rate cfg.design (noiseDraw cfg 0) (1 / 2) 30 (1 / 5)
  let n := (simTime cfg).length
  let width := cfg.rate / 20
  let comp := (List.range (cfg.duration * 3)).foldl (seizureStep cfg n width)
    (List.replicate n (FV.num 0))
  pure (zipAdd base ((zipMulQ comp (ampEnvelope n)).map (fun v => fvMul v (FV.num 3))))

/-! ### Basic lemmas about the idealised arithmetic -/

/-- Every element is NaN. -/
def allNan (l : List FV) : Prop := ∀ v ∈ l, v = FV.nan

/-- Every element is an ordinary finite number. -/
def allNum (l : List FV) : Prop := ∀ v ∈ l, fvIsNum v = true

theorem fvAdd_nan_right (x : FV) : fvAdd x FV.nan = FV.nan := by cases x <;> rfl

theorem fvAdd_nan_left (x : FV) : fvAdd FV.nan x = FV.nan := by cases x <;> rfl

theorem fvMul_nan_right (x : FV) : fvMul x FV.nan = FV.nan := by cases x <;> rfl

theorem fvMul_nan_left (x : FV) : fvMul FV.nan x = FV.nan := by cases x <;> rfl

theorem fvSub_nan_right (x : FV) : fvSub x FV.nan = FV.nan := by cases x <;> rfl

theorem fvDiv_nan_right (x : FV) : fvDiv x FV.nan = FV.nan := by cases x <;> rfl

theorem fvDiv_nan_left (x : FV) : fvDiv FV.nan x = FV.nan := by cases x <;> rfl

theorem fvMax_nan_left (x : FV) : fvMax FV.nan x = FV.nan := by cases x <;> rfl

theorem fvAdd_zero_right (x : FV) : fvAdd x (FV.num 0) = x := by
  cases x <;> simp [fvAdd]

theorem fvAdd_num_num (a b : ℚ) : fvAdd (FV.num a) (FV.num b) = FV.num (a + b) := rfl

theorem fvAdd_num_assoc (x : FV) (a b : ℚ) :
    fvAdd (fvAdd x (FV.num a)) (FV.num b) = fvAdd x (FV.num (a + b)) := by
  cases x <;> simp [fvAdd, add_assoc]

theorem fvSum_replicate_num (n : ℕ) (c : ℚ) :
    fvSum (List.replicate n (FV.num c)) = FV.num (n * c) := by
  have h : ∀ (m : ℕ) (a : ℚ),
      (List.replicate m (FV.num c)).foldl fvAdd (FV.num a) = FV.num (a + m * c) := by
    intro m
    induction m with
    | zero => intro a; simp [fvSum]
    | succ k ih =>
      intro a
      simp only [List.replicate_succ, List.foldl_cons, fvAdd_num_num]
      rw [ih]
      congr 1
      push_cast
      ring
  simpa [fvSum] using h n 0

/-- A scanl of IEEE addition started from NaN stays NaN. -/
theorem scanl_fvAdd_nan (xs : List FV) :
    ∀ v ∈ List.scanl fvAdd FV.nan xs, v = FV.nan := by
  induction xs with
  | nil => intro v hv; simpa [List.scanl] using hv
  | cons x xs ih =>
    intro v hv
    simp only [List.scanl, List.mem_cons] at hv
    rcases hv with h | h
    · exact h
    · rw [fvAdd_nan_left] at h
      exact ih v h

/-- np.cumsum of an all-NaN buffer is all-NaN. -/
theorem fvCumsum_allNan {l : List FV} (h : allNan l) : allNan (fvCumsum l) := by
  cases l with
  | nil => intro v hv; simp [fvCumsum, List.scanl] at hv
  | cons x xs =>
    intro v hv
    have hx : x = FV.nan := h x (by simp)
    simp only [fvCumsum, List.scanl, List.drop_succ_cons, List.drop_zero] at hv
    rw [hx, fvAdd_nan_right] at hv
    exact scanl_fvAdd_nan xs v hv

theorem fvCumsum_length (l : List FV) : (fvCumsum l).length = l.length := by
  simp [fvCumsum, List.length_scanl]

/-- Mapping a NaN-strict function over an all-NaN buffer is all-NaN. -/
theorem map_allNan {l : List FV} {f : FV → FV} (hf : f FV.nan = FV.nan)
    (h : allNan l) : allNan (l.map f) := by
  intro v hv
  rcases List.mem_map.1 hv with ⟨w, hw, rfl⟩
  rw [h w hw, hf]

/-- Adding an all-NaN buffer to any buffer is all-NaN. -/
theorem zipAdd_allNan_right : ∀ (a b : List FV), allNan b → allNan (zipAdd a b) := by
  intro a
  induction a with
  | nil => intro b _ v hv; simp [zipAdd] at hv
  | cons x xs ih =>
    intro b hb v hv
    cases b with
    | nil => simp [zipAdd] at hv
    | cons y ys =>
      simp only [zipAdd, List.zipWith_cons_cons, List.mem_cons] at hv
      rcases hv with h | h
      · rw [hb y (by simp), fvAdd_nan_right] at h
        exact h
      · exact ih ys (fun w hw => hb w (by simp [hw])) v h

theorem zipAdd_length (a b : List FV) : (zipAdd a b).length = min a.length b.length := by
  simp [zipAdd]

/-! ### np.interp and min-max normalisation on constant data -/

/-- Interpolating data that is constantly `c` yields `c` at every
query point (numpy's NaN fallback covers even coincident sample
points). -/
theorem interpGo_const (c : ℚ) :
    ∀ (xp : List ℚ) (fp : List FV) (x : ℚ), xp ≠ [] → xp.length = fp.length →
      (∀ v ∈ fp, v = FV.num c) → interpGo xp fp x = FV.num c := by
  intro xp
  induction xp with
  | nil => intro fp x h; exact absurd rfl h
  | cons x0 xps ih =>
    intro fp x _ hlen hconst
    cases xps with
    | nil =>
      cases fp with
      | nil => simp at hlen
      | cons f0 fs => simpa [interpGo] using hconst f0 (by simp)
    | cons x1 xps' =>
      cases fp with
      | nil => simp at hlen
      | cons f0 fs =>
        cases fs with
        | nil => simp at hlen
        | cons f1 fs' =>
          have hf0 : f0 = FV.num c := hconst f0 (by simp)
          have hf1 : f1 = FV.num c := hconst f1 (by simp)
          by_cases hx1 : x < x1
          · by_cases hx0 : x ≤ x0
            · simp [interpGo, hx1, hx0, hf0]
            · subst hf0; subst hf1
              by_cases hd : x1 - x0 = 0
              · simp [interpGo, hx1, hx0, hd, fvSub, fvAdd, fvNeg, fvDiv, fvMul, fvIsNan, fvEq]
              · simp [interpGo, hx1, hx0, fvSub, fvAdd, fvNeg, fvDiv, fvMul, hd, fvIsNan]
          · have : interpGo (x0 :: x1 :: xps') (f0 :: f1 :: fs') x
                = interpGo (x1 :: xps') (f1 :: fs') x := by
              simp [interpGo, hx1]
            rw [this]
            exact ih (f1 :: fs') x (by simp) (by simpa using hlen)
              (fun v hv => hconst v (by simp [hv]))

theorem foldl_fvMin_const (c : ℚ) :
    ∀ (l : List FV), (∀ v ∈ l, v = FV.num c) → l.foldl fvMin (FV.num c) = FV.num c := by
  intro l
  induction l with
  | nil => intro _; rfl
  | cons x xs ih =>
    intro h
    rw [List.foldl_cons, h x (by simp), show fvMin (FV.num c) (FV.num c) = FV.num c by
      simp [fvMin]]
    exact ih (fun v hv => h v (by simp [hv]))

theorem foldl_fvMax_const (c : ℚ) :
    ∀ (l : List FV), (∀ v ∈ l, v = FV.num c) → l.foldl fvMax (FV.num c) = FV.num c := by
  intro l
  induction l with
  | nil => intro _; rfl
  | cons x xs ih =>
    intro h
    rw [List.foldl_cons, h x (by simp), show fvMax (FV.num c) (FV.num c) = FV.num c by
      simp [fvMax]]
    exact ih (fun v hv => h v (by simp [hv]))

/-- Min-max normalising a nonempty constant buffer: numerator and
denominator are both zero, so every output sample is 0/0 = NaN. -/
theorem minmaxNorm_const (c : ℚ) (l : List FV) (hne : l ≠ [])
    (hconst : ∀ v ∈ l, v = FV.num c) :
    ∃ out, minmaxNorm l = Except.ok out ∧ out.length = l.length ∧ allNan out := by
  cases l with
  | nil => exact absurd rfl hne
  | cons x xs =>
    have hx : x = FV.num c := hconst x (by simp)
    have hmin : npMin (x :: xs) = Except.ok (FV.num c) := by
      simp only [npMin, hx]
      rw [foldl_fvMin_const c xs (fun v hv => hconst v (by simp [hv]))]
    have hmax : npMax (x :: xs) = Except.ok (FV.num c) := by
      simp only [npMax, hx]
      rw [foldl_fvMax_const c xs (fun v hv => hconst v (by simp [hv]))]
    refine ⟨(x :: xs).map (fun v => fvDiv (fvSub v (FV.num c)) (fvSub (FV.num c) (FV.num c))),
      ?_, ?_, ?_⟩
    · unfold minmaxNorm
      rw [hmin, hmax]
      rfl
    · simp
    · intro v hv
      rcases List.mem_map.1 hv with ⟨w, hw, rfl⟩
      rw [hconst w hw]
      simp [fvSub, fvAdd, fvNeg, fvDiv]

theorem exBind_ok {ε α β : Type} (a : α) (f : α → Except ε β) :
    (Except.ok a >>= f) = f a := rfl

theorem exBind_err {ε α β : Type} (e : ε) (f : α → Except ε β) :
    ((Except.error e : Except ε α) >>= f) = Except.error e := rfl

theorem exPure {ε α : Type} (a : α) : (pure a : Except ε α) = Except.ok a := rfl

/-! ### C2: tone mapping on a constant signal -/

/-- C2 (amended): a constant input signal resamples to a constant
buffer, and the unguarded min-max normalisation then computes 0/0 at
every sample, so simple_tone_mapping silently returns a buffer that is
entirely NaN — the normalised value is not defined as 0 and no guard
exists. -/
theorem timeAxis_length (rate : ℚ) (n : ℕ) : (timeAxis rate n).length = n := by
  simp [timeAxis]

theorem timeAxis_ne_nil {rate : ℚ} {n : ℕ} (h : 1 ≤ n) : timeAxis rate n ≠ [] := by
  intro hc
  have := congrArg List.length hc
  rw [timeAxis_length] at this
  simp at this
  omega

theorem simpleToneMapping_const_nan (cfg : SonCfg) (c : ℚ) (eeg : List FV) (duration : ℚ)
    (hne : eeg ≠ []) (hconst : ∀ v ∈ eeg, v = FV.num c)
    (hdur : 1 ≤ duration * cfg.audioRate) :
    ∃ out, simpleToneMapping cfg eeg duration = Except.ok out ∧
      out.length = pyIntLen (duration * cfg.audioRate) ∧ out ≠ [] ∧ allNan out := by
  have hnpos : 1 ≤ pyIntLen (duration * cfg.audioRate) := by
    unfold pyIntLen
    have h1 : (1 : ℤ) ≤ ⌊duration * cfg.audioRate⌋ := by
      rw [Int.le_floor]
      exact_mod_cast hdur
    omega
  have htEeg_ne : timeAxis cfg.eegRate eeg.length ≠ [] := by
    apply timeAxis_ne_nil
    cases eeg with
    | nil => exact absurd rfl hne
    | cons x xs => simp
  have hInterp : npInterp (timeAxis cfg.audioRate (pyIntLen (duration * cfg.audioRate)))
      (timeAxis cfg.eegRate eeg.length) eeg
      = Except.ok ((timeAxis cfg.audioRate (pyIntLen (duration * cfg.audioRate))).map
          (interpGo (timeAxis cfg.eegRate eeg.length) eeg)) := by
    unfold npInterp
    rw [if_neg]
    simp [htEeg_ne]
  have hIconst : ∀ v ∈ (timeAxis cfg.audioRate (pyIntLen (duration * cfg.audioRate))).map
      (interpGo (timeAxis cfg.eegRate eeg.length) eeg), v = FV.num c := by
    intro v hv
    rcases List.mem_map.1 hv with ⟨x, _, rfl⟩
    exact interpGo_const c _ eeg x htEeg_ne (by simp [timeAxis_length]) hconst
  have hIne : (timeAxis cfg.audioRate (pyIntLen (duration * cfg.audioRate))).map
      (interpGo (timeAxis cfg.eegRate eeg.length) eeg) ≠ [] := by
    intro h
    have := congrArg List.length h
    simp [timeAxis_length] at this
    omega
  rcases minmaxNorm_const c _ hIne hIconst with ⟨normOut, hNorm, hNlen, hNnan⟩
  refine ⟨((fvCumsum ((normOut.map (fun v => fvAdd (FV.num 100) (fvMul v (FV.num 900)))).map
      (fun f => fvDiv (fvMul (fvMul (FV.num 2) (FV.num cfg.piQ)) f) (FV.num cfg.audioRate)))).map
      (fun p => fvMul (FV.num (1 / 2)) (liftNum cfg.sinQ p))), ?_, ?_, ?_, ?_⟩
  · show (do
      let interp ← npInterp (timeAxis cfg.audioRate (pyIntLen (duration * cfg.audioRate)))
        (timeAxis cfg.eegRate eeg.length) eeg
      let normalized ← minmaxNorm interp
      let freqMapped := normalized.map (fun v => fvAdd (FV.num 100) (fvMul v (FV.num 900)))
      let phase := fvCumsum (freqMapped.map (fun f =>
        fvDiv (fvMul (fvMul (FV.num 2) (FV.num cfg.piQ)) f) (FV.num cfg.audioRate)))
      pure (phase.map (fun p => fvMul (FV.num (1 / 2)) (liftNum cfg.sinQ p)))) = _
    rw [hInterp, exBind_ok, hNorm, exBind_ok]
    rfl
  · have := hNlen
    simp [timeAxis_length] at this
    simp [fvCumsum_length, this]
  · intro h
    have hl := congrArg List.length h
    have := hNlen
    simp [timeAxis_length] at this
    simp [fvCumsum_length, this] at hl
    omega
  · exact map_allNan rfl (fvCumsum_allNan (map_allNan rfl (map_allNan rfl hNnan)))

/-! ### C1: multi-band synthesis on all-zero bands -/

/-- The five canonical band names, in the dict order the analyzer
produces. -/
def canonicalBands : List String := ["delta", "theta", "alpha", "beta", "gamma"]

theorem npMax_allNan {l : List FV} (hne : l ≠ []) (h : allNan l) :
    npMax l = Except.ok FV.nan := by
  cases l with
  | nil => exact absurd rfl hne
  | cons x xs =>
    have hx : x = FV.nan := h x (by simp)
    have hfold : ∀ (ys : List FV), ys.foldl fvMax FV.nan = FV.nan := by
      intro ys
      induction ys with
      | nil => rfl
      | cons y ys ih => rw [List.foldl_cons, fvMax_nan_left]; exact ih
    simp [npMax, hx, hfold]

theorem bandPhase_allNan (cfg : SonCfg) (baseFreq dev : ℚ) {l : List FV}
    (h : allNan l) : allNan (bandPhase cfg baseFreq dev l) :=
  fvCumsum_allNan (map_allNan rfl h)

theorem bandPhase_length (cfg : SonCfg) (baseFreq dev : ℚ) (l : List FV) :
    (bandPhase cfg baseFreq dev l).length = l.length := by
  simp [bandPhase, fvCumsum_length]

theorem enumFrom_map_allNan (g : ℕ × FV → FV)
    (hg : ∀ k, g (k, FV.nan) = FV.nan) :
    ∀ (k : ℕ) (l : List FV), allNan l → allNan ((List.enumFrom k l).map g) := by
  intro k l
  induction l generalizing k with
  | nil => intro _ v hv; simp at hv
  | cons x xs ih =>
    intro h v hv
    simp only [List.enumFrom, List.map_cons, List.mem_cons] at hv
    rcases hv with h1 | h1
    · rw [h1, h x (by simp), hg]
    · exact ih (k + 1) (fun w hw => h w (by simp [hw])) v h1

/-- One loop iteration of multi_band_sonification on an all-zero
canonical band: interpolation gives all-zero, the unguarded
normalisation gives all-NaN, and whichever waveform branch runs turns
that into an all-NaN wave of the output length that is added to the
mix. -/
theorem multiBandStep_zero (cfg : SonCfg) (n : ℕ) (hn : 1 ≤ n) (i : ℕ)
    (name : String) (hname : name ∈ canonicalBands) (sig : List FV)
    (hsig : sig ≠ []) (hzero : ∀ v ∈ sig, v = FV.num 0)
    (audio : List FV) (w? : Option (List FV)) :
    ∃ wv, multiBandStep cfg (timeAxis cfg.audioRate n) (audio, w?) (i, name, sig)
        = Except.ok (zipAdd audio wv, some wv) ∧ wv.length = n ∧ allNan wv := by
  have htEeg_ne : timeAxis cfg.eegRate sig.length ≠ [] := by
    apply timeAxis_ne_nil
    cases sig with
    | nil => exact absurd rfl hsig
    | cons x xs => simp
  have hInterp : npInterp (timeAxis cfg.audioRate n) (timeAxis cfg.eegRate sig.length) sig
      = Except.ok ((timeAxis cfg.audioRate n).map
          (interpGo (timeAxis cfg.eegRate sig.length) sig)) := by
    unfold npInterp
    rw [if_neg]
    simp [htEeg_ne]
  have hIconst : ∀ v ∈ (timeAxis cfg.audioRate n).map
      (interpGo (timeAxis cfg.eegRate sig.length) sig), v = FV.num 0 := by
    intro v hv
    rcases List.mem_map.1 hv with ⟨x, _, rfl⟩
    exact interpGo_const 0 _ sig x htEeg_ne (by simp [timeAxis_length]) hzero
  have hIne : (timeAxis cfg.audioRate n).map
      (interpGo (timeAxis cfg.eegRate sig.length) sig) ≠ [] := by
    intro h
    have := congrArg List.length h
    simp [timeAxis_length] at this
    omega
  rcases minmaxNorm_const 0 _ hIne hIconst with ⟨normOut, hNorm, hNlen, hNnan⟩
  have hNlen' : normOut.length = n := by
    rw [hNlen]
    simp [timeAxis_length]
  simp only [canonicalBands, List.mem_cons, List.mem_singleton] at hname
  rcases hname with rfl | rfl | rfl | rfl | rfl | h
  · refine ⟨(bandPhase cfg (100 * ((i : ℚ) + 1)) 50 normOut).map
      (fun p => fvMul (FV.num (15 / 100)) (liftNum cfg.sinQ p)), ?_, ?_, ?_⟩
    · simp only [multiBandStep]
      rw [hInterp, exBind_ok, hNorm, exBind_ok]
      rfl
    · simp [bandPhase_length, hNlen']
    · exact map_allNan rfl (bandPhase_allNan cfg _ _ hNnan)
  · refine ⟨(bandPhase cfg (100 * ((i : ℚ) + 1)) 100 normOut).map
      (fun p => fvMul (FV.num (1 / 10)) (liftNum cfg.sawHalfQ p)), ?_, ?_, ?_⟩
    · simp only [multiBandStep]
      rw [hInterp, exBind_ok, hNorm, exBind_ok]
      rfl
    · simp [bandPhase_length, hNlen']
    · exact map_allNan rfl (bandPhase_allNan cfg _ _ hNnan)
  · refine ⟨(bandPhase cfg (100 * ((i : ℚ) + 1)) 200 normOut).map
      (fun p => fvMul (FV.num (1 / 10)) (liftNum cfg.squareQ p)), ?_, ?_, ?_⟩
    · simp only [multiBandStep]
      rw [hInterp, exBind_ok, hNorm, exBind_ok]
      rfl
    · simp [bandPhase_length, hNlen']
    · exact map_allNan rfl (bandPhase_allNan cfg _ _ hNnan)
  · refine ⟨(bandPhase cfg (100 * ((i : ℚ) + 1)) 300 normOut).map
      (fun p => fvMul (FV.num (1 / 20)) (liftNum cfg.sawQ p)), ?_, ?_, ?_⟩
    · simp only [multiBandStep]
      rw [hInterp, exBind_ok, hNorm, exBind_ok]
      rfl
    · simp [bandPhase_length, hNlen']
    · exact map_allNan rfl (bandPhase_allNan cfg _ _ hNnan)
  · refine ⟨((bandPhase cfg (100 * ((i : ℚ) + 1)) 400 normOut).enum).map
      (fun p => fvMul (fvMul (FV.num (1 / 20)) (liftNum cfg.sinQ p.2))
        (fvAdd (FV.num (1 / 2)) (fvMul (FV.num (1 / 2)) (FV.num (cfg.noiseQ p.1))))), ?_, ?_, ?_⟩
    · simp only [multiBandStep]
      rw [hInterp, exBind_ok, hNorm, exBind_ok]
      rfl
    · simp [List.enum_length, bandPhase_length, hNlen']
    · exact enumFrom_map_allNan _ (fun k => rfl) 0 _ (bandPhase_allNan cfg _ _ hNnan)
  · exact absurd h (by simp)

/-- Folding the multi-band loop over any nonempty run of canonical
all-zero bands produces an all-NaN mix of the output length. -/
theorem foldlM_zeroBands (cfg : SonCfg) (N : ℕ) (hN : 1 ≤ N) :
    ∀ (entries : List (ℕ × String × List FV)), entries ≠ [] →
      (∀ e ∈ entries, e.2.1 ∈ canonicalBands ∧ e.2.2 ≠ [] ∧ ∀ v ∈ e.2.2, v = FV.num 0) →
      ∀ (audio : List FV), audio.length = N → ∀ (w? : Option (List FV)),
      ∃ audio2 w2, List.foldlM (multiBandStep cfg (timeAxis cfg.audioRate N)) (audio, w?) entries
          = Except.ok (audio2, some w2) ∧ audio2.length = N ∧ allNan audio2 := by
  intro entries
  induction entries with
  | nil => intro h; exact absurd rfl h
  | cons e rest ih =>
    intro _ hprop audio hlen w?
    obtain ⟨i, name, sig⟩ := e
    obtain ⟨hnm, hne, hz⟩ := hprop (i, name, sig) (by simp)
    obtain ⟨wv, hstep, hwlen, hwnan⟩ := multiBandStep_zero cfg N hN i name hnm sig hne hz audio w?
    have hlen2 : (zipAdd audio wv).length = N := by
      rw [zipAdd_length, hlen, hwlen]
      simp
    cases rest with
    | nil =>
      refine ⟨zipAdd audio wv, wv, ?_, hlen2, zipAdd_allNan_right audio wv hwnan⟩
      rw [List.foldlM_cons, hstep, exBind_ok]
      rfl
    | cons y rest2 =>
      obtain ⟨audio2, w2, hfold, hlen3, hnan3⟩ :=
        ih (by simp) (fun e he => hprop e (by simp [he])) (zipAdd audio wv) hlen2 (some wv)
      refine ⟨audio2, w2, ?_, hlen3, hnan3⟩
      rw [List.foldlM_cons, hstep, exBind_ok]
      exact hfold

/-- C1 (amended): multi-band synthesis on the all-zero canonical
decomposition returns an all-NaN buffer, not an all-zero one — every
per-band min-max normalisation computes 0/0, the NaN propagates through
every waveform branch into the mix, and the final peak normalisation
divides NaN by NaN; there is no zero guard anywhere. -/
theorem multiBand_allZero_nan (cfg : SonCfg) (hA : 1 ≤ cfg.audioRate)
    (d t a b g : List FV)
    (hd : d ≠ []) (hzd : ∀ v ∈ d, v = FV.num 0)
    (ht : t ≠ []) (hzt : ∀ v ∈ t, v = FV.num 0)
    (ha : a ≠ []) (hza : ∀ v ∈ a, v = FV.num 0)
    (hb : b ≠ []) (hzb : ∀ v ∈ b, v = FV.num 0)
    (hg : g ≠ []) (hzg : ∀ v ∈ g, v = FV.num 0) :
    ∃ out, multiBandSonification cfg
        [("delta", d), ("theta", t), ("alpha", a), ("beta", b), ("gamma", g)]
        = Except.ok out ∧
      out.length = pyIntLen (10 * cfg.audioRate) ∧ allNan out := by
  have hN : 1 ≤ pyIntLen (10 * cfg.audioRate) := by
    unfold pyIntLen
    have h1 : (1 : ℤ) ≤ ⌊10 * cfg.audioRate⌋ := by
      rw [Int.le_floor]
      push_cast
      linarith
    omega
  have hprop : ∀ e ∈ [((0 : ℕ), ("delta", d)), (1, ("theta", t)), (2, ("alpha", a)),
      (3, ("beta", b)), (4, ("gamma", g))],
      e.2.1 ∈ canonicalBands ∧ e.2.2 ≠ [] ∧ ∀ v ∈ e.2.2, v = FV.num 0 := by
    intro e he
    simp only [List.mem_cons, List.not_mem_nil, or_false] at he
    rcases he with rfl | rfl | rfl | rfl | rfl
    · exact ⟨by simp [canonicalBands], hd, hzd⟩
    · exact ⟨by simp [canonicalBands], ht, hzt⟩
    · exact ⟨by simp [canonicalBands], ha, hza⟩
    · exact ⟨by simp [canonicalBands], hb, hzb⟩
    · exact ⟨by simp [canonicalBands], hg, hzg⟩
  obtain ⟨audio2, w2, hfold, hlenA, hnanA⟩ :=
    foldlM_zeroBands cfg (pyIntLen (10 * cfg.audioRate)) hN _ (by simp) hprop
      (List.replicate (pyIntLen (10 * cfg.audioRate)) (FV.num 0)) (by simp) none
  have hne2 : audio2.map fvAbs ≠ [] := by
    intro h
    have := congrArg List.length h
    simp [hlenA] at this
    omega
  refine ⟨audio2.map (fun v => fvMul (fvDiv v FV.nan) (FV.num (9 / 10))), ?_, ?_, ?_⟩
  · simp only [multiBandSonification]
    have henum : ([("delta", d), ("theta", t), ("alpha", a), ("beta", b),
        ("gamma", g)] : List (String × List FV)).enum
        = [((0 : ℕ), ("delta", d)), (1, ("theta", t)), (2, ("alpha", a)),
          (3, ("beta", b)), (4, ("gamma", g))] := rfl
    rw [henum, hfold, exBind_ok]
    show (npMax (audio2.map fvAbs) >>= fun m =>
      pure (audio2.map (fun v => fvMul (fvDiv v m) (FV.num (9 / 10))))) = _
    rw [npMax_allNan hne2 (map_allNan rfl hnanA), exBind_ok]
    rfl
  · simp [hlenA]
  · exact map_allNan rfl hnanA

/-! ### C4: sonifier behaviour on empty / degenerate inputs -/

/-- C4 (amended): what actually happens on the degenerate sonifier
inputs.  An empty signal makes np.interp raise (a numpy ValueError, not
a repository-level InvalidParameter — no such taxonomy exists in the
code); a non-positive duration makes the empty-buffer reduction inside
the min-max normalisation raise; but an empty band decomposition is not
rejected at all: multi_band_sonification silently returns a NaN-filled
buffer, because the zero mix is divided by its zero peak. -/
theorem sonifier_degenerate_inputs (cfg : SonCfg) (hA : 1 ≤ cfg.audioRate) :
    (∀ duration : ℚ, simpleToneMapping cfg [] duration = Except.error NpErr.emptyInterp)
    ∧ (∀ (eeg : List FV) (duration : ℚ), eeg ≠ [] → duration ≤ 0 →
        simpleToneMapping cfg eeg duration = Except.error NpErr.emptyReduce)
    ∧ multiBandSonification cfg []
        = Except.ok (List.replicate (pyIntLen (10 * cfg.audioRate)) FV.nan) := by
  refine ⟨fun duration => rfl, ?_, ?_⟩
  · intro eeg duration hne hdur
    have hn0 : pyIntLen (duration * cfg.audioRate) = 0 := by
      unfold pyIntLen
      have h1 : ⌊duration * cfg.audioRate⌋ ≤ 0 := by
        have h2 : duration * cfg.audioRate ≤ 0 :=
          mul_nonpos_iff.2 (Or.inr ⟨hdur, le_trans zero_le_one hA⟩)
        calc ⌊duration * cfg.audioRate⌋ ≤ ⌊(0 : ℚ)⌋ := Int.floor_le_floor h2
          _ = 0 := Int.floor_zero
      omega
    have htEeg_ne : timeAxis cfg.eegRate eeg.length ≠ [] := by
      apply timeAxis_ne_nil
      cases eeg with
      | nil => exact absurd rfl hne
      | cons x xs => simp
    have hInterp : npInterp (timeAxis cfg.audioRate 0) (timeAxis cfg.eegRate eeg.length) eeg
        = Except.ok [] := by
      unfold npInterp
      rw [if_neg]
      · rfl
      · simp [htEeg_ne]
    simp only [simpleToneMapping, hn0]
    rw [hInterp, exBind_ok]
    rfl
  · have hN : 1 ≤ pyIntLen (10 * cfg.audioRate) := by
      unfold pyIntLen
      have h1 : (1 : ℤ) ≤ ⌊10 * cfg.audioRate⌋ := by
        rw [Int.le_floor]
        push_cast
        linarith
      omega
    simp only [multiBandSonification]
    show (npMax ((List.replicate (pyIntLen (10 * cfg.audioRate)) (FV.num 0)).map fvAbs)
        >>= fun m => pure ((List.replicate (pyIntLen (10 * cfg.audioRate)) (FV.num 0)).map
          (fun v => fvMul (fvDiv v m) (FV.num (9 / 10))))) = _
    have habs : (List.replicate (pyIntLen (10 * cfg.audioRate)) (FV.num 0)).map fvAbs
        = List.replicate (pyIntLen (10 * cfg.audioRate)) (FV.num 0) := by
      rw [List.map_replicate]
      norm_num [fvAbs]
    rw [habs]
    obtain ⟨k, hk⟩ : ∃ k, pyIntLen (10 * cfg.audioRate) = k + 1 :=
      ⟨pyIntLen (10 * cfg.audioRate) - 1, by omega⟩
    rw [hk]
    have hmax : npMax (List.replicate (k + 1) (FV.num 0)) = Except.ok (FV.num 0) := by
      rw [List.replicate_succ]
      show Except.ok ((List.replicate k (FV.num 0)).foldl fvMax (FV.num 0)) = _
      rw [foldl_fvMax_const 0 _ (fun v hv => (List.eq_of_mem_replicate hv))]
    rw [hmax, exBind_ok, List.map_replicate]
    norm_num [fvDiv, fvMul]
    rfl

/-! ### C5: Hjorth parameters on a zero-variance signal -/

theorem fvSub_num_self (c : ℚ) : fvSub (FV.num c) (FV.num c) = FV.num 0 := by
  simp [fvSub, fvAdd, fvNeg]

theorem npDiff_replicate (c : ℚ) :
    ∀ n, npDiff (List.replicate n (FV.num c)) = List.replicate (n - 1) (FV.num 0) := by
  intro n
  induction n with
  | zero => rfl
  | succ k ih =>
    cases k with
    | zero => rfl
    | succ m =>
      show npDiff (FV.num c :: FV.num c :: List.replicate m (FV.num c)) = _
      have hstep : npDiff (FV.num c :: FV.num c :: List.replicate m (FV.num c))
          = fvSub (FV.num c) (FV.num c)
            :: npDiff (FV.num c :: List.replicate m (FV.num c)) := rfl
      rw [hstep, fvSub_num_self]
      have ih2 : npDiff (FV.num c :: List.replicate m (FV.num c))
          = List.replicate m (FV.num 0) := by
        have h3 : (FV.num c :: List.replicate m (FV.num c))
            = List.replicate (m + 1) (FV.num c) := by
          simp [List.replicate_succ]
        rw [h3, ih]
        simp
      rw [ih2]
      simp [List.replicate_succ]

theorem npVar_replicate (n : ℕ) (c : ℚ) (hn : 1 ≤ n) :
    npVar (List.replicate n (FV.num c)) = FV.num 0 := by
  have hcast : ((n : ℚ)) ≠ 0 := by
    have h0 : (0 : ℚ) < (n : ℚ) := by exact_mod_cast (by omega : 0 < n)
    exact ne_of_gt h0
  have hm : fvDiv (FV.num ((n : ℚ) * c)) (FV.num (n : ℚ)) = FV.num c := by
    simp [fvDiv, hcast, mul_div_cancel_left₀ c hcast]
  simp only [npVar, List.length_replicate, fvSum_replicate_num, List.map_replicate, hm,
    fvSub_num_self]
  have hmul : fvMul (FV.num 0) (FV.num 0) = FV.num 0 := by norm_num [fvMul]
  rw [hmul, fvSum_replicate_num]
  simp [fvDiv, hcast]

/-- C5 (amended): Hjorth parameters of a constant (zero-variance)
signal are (0, NaN, NaN) — mobility and complexity silently come out
NaN via 0/0.  No DegenerateSignal condition is signalled and no defined
fallback exists: the function is total and cannot raise, numpy only
emits a runtime warning. -/
theorem hjorth_constant_nan (sqrtQ : ℚ → ℚ) (n : ℕ) (c : ℚ) (hn : 1 ≤ n) :
    computeHjorthParameters sqrtQ (List.replicate n (FV.num c))
      = (FV.num 0, FV.nan, FV.nan) := by
  have hd1 : npDiff (List.replicate n (FV.num c)) ++ [FV.num 0]
      = List.replicate n (FV.num 0) := by
    rw [npDiff_replicate]
    have h1 : List.replicate (n - 1) (FV.num 0) ++ [FV.num 0]
        = List.replicate ((n - 1) + 1) (FV.num 0) := (List.replicate_succ' _ _).symm
    rw [h1]
    congr 1
    omega
  have hd2 : npDiff (npDiff (List.replicate n (FV.num c))) ++ [FV.num 0, FV.num 0]
      = List.replicate ((n - 2) + 2) (FV.num 0) := by
    rw [npDiff_replicate, npDiff_replicate]
    have h1 : n - 1 - 1 = n - 2 := by omega
    rw [h1, List.replicate_add]
    rfl
  simp only [computeHjorthParameters]
  rw [hd1, hd2, npVar_replicate n c hn, npVar_replicate n 0 hn,
    npVar_replicate ((n - 2) + 2) 0 (by omega)]
  rfl

/-! ### C3: band edges violating 0 < low < high < Nyquist -/

/-- scipy's critical-frequency validation rejects every cutoff pair
that violates 0 < low < high < Nyquist (after normalisation by the
Nyquist frequency). -/
theorem butterCheck_invalid (rate lo hi : ℚ) (hr : 0 < rate)
    (hbad : ¬(0 < lo ∧ lo < hi ∧ hi < rate / 2)) :
    ∃ e, butterCheck (lo / ((1 / 2 : ℚ) * rate)) (hi / ((1 / 2 : ℚ) * rate))
      = Except.error e := by
  set ny := (1 / 2 : ℚ) * rate with hny_def
  have hny : 0 < ny := by positivity
  by_cases h1 : lo ≤ 0
  · refine ⟨NpErr.freqNonPos, ?_⟩
    unfold butterCheck
    rw [if_pos]
    exact Or.inl (div_nonpos_iff.2 (Or.inr ⟨h1, le_of_lt hny⟩))
  · push_neg at h1
    by_cases h3 : hi ≤ 0
    · refine ⟨NpErr.freqNonPos, ?_⟩
      unfold butterCheck
      rw [if_pos]
      exact Or.inr (div_nonpos_iff.2 (Or.inr ⟨h3, le_of_lt hny⟩))
    · push_neg at h3
      have hpos1 : 0 < lo / ny := div_pos h1 hny
      have hpos2 : 0 < hi / ny := div_pos h3 hny
      by_cases h2 : hi ≤ lo
      · refine ⟨NpErr.wnOrder, ?_⟩
        unfold butterCheck
        rw [if_neg, if_pos]
        · exact (div_le_div_iff_of_pos_right hny).2 h2
        · push_neg
          exact ⟨hpos1, hpos2⟩
      · push_neg at h2
        have h4 : rate / 2 ≤ hi := by
          by_contra h4
          push_neg at h4
          exact hbad ⟨h1, h2, h4⟩
        have h5 : ny ≤ hi := by
          rw [hny_def]
          linarith
        refine ⟨NpErr.digitalWn, ?_⟩
        unfold butterCheck
        rw [if_neg, if_neg, if_pos]
        · exact Or.inr ((one_le_div hny).2 h5)
        · push_neg
          exact (div_lt_div_iff_of_pos_right hny).2 h2
        · push_neg
          exact ⟨hpos1, hpos2⟩

/-- C3 (confirmed): apply_bandpass_filter and
generate_band_limited_noise with cutoffs violating
0 < low < high < sampling_rate/2 (in particular any band edge at or
above Nyquist) fail synchronously inside scipy's filter-design
validation, before any filtering could produce an unstable filter or
NaN/Inf. -/
theorem bandpass_invalid_cutoffs (rate lo hi amp : ℚ) (design : ℚ → ℚ → Coeffs)
    (x : List FV) (noise : List ℚ) (hr : 0 < rate)
    (hbad : ¬(0 < lo ∧ lo < hi ∧ hi < rate / 2)) :
    (∃ e, applyBandpassFilter rate design x lo hi = Except.error e)
    ∧ (∃ e, generateBandLimitedNoise rate design noise lo hi amp = Except.error e) := by
  obtain ⟨e, he⟩ := butterCheck_invalid rate lo hi hr hbad
  constructor
  · refine ⟨e, ?_⟩
    simp only [applyBandpassFilter]
    rw [he]
    rfl
  · refine ⟨e, ?_⟩
    simp only [generateBandLimitedNoise]
    rw [he]
    rfl

/-! ### Length and finiteness lemmas for the scipy filtering layer -/

theorem fvIsNum_num (q : ℚ) : fvIsNum (FV.num q) = true := rfl

theorem fvAdd_isNum {x y : FV} (hx : fvIsNum x = true) (hy : fvIsNum y = true) :
    fvIsNum (fvAdd x y) = true := by
  cases x <;> cases y <;> simp_all [fvIsNum, fvAdd]

theorem fvMul_isNum {x y : FV} (hx : fvIsNum x = true) (hy : fvIsNum y = true) :
    fvIsNum (fvMul x y) = true := by
  cases x <;> cases y <;> simp_all [fvIsNum, fvMul]

theorem fvSub_isNum {x y : FV} (hx : fvIsNum x = true) (hy : fvIsNum y = true) :
    fvIsNum (fvSub x y) = true := by
  cases x <;> cases y <;> simp_all [fvIsNum, fvSub, fvAdd, fvNeg]

theorem headD_allNum {z : List FV} (h : allNum z) :
    fvIsNum (z.headD (FV.num 0)) = true := by
  cases z with
  | nil => rfl
  | cons a t => exact h a (by simp)

theorem getLastD_allNum {z : List FV} (h : allNum z) :
    fvIsNum (z.getLastD (FV.num 0)) = true := by
  cases z with
  | nil => rfl
  | cons a t =>
    have : (a :: t).getLastD (FV.num 0) = (a :: t).getLast (by simp) := by
      simp [List.getLastD_eq_getLast?, List.getLast?_eq_getLast]
    rw [this]
    exact h _ (List.getLast_mem _)

theorem getD_allNum {z : List FV} (h : allNum z) (j : ℕ) :
    fvIsNum (z.getD j (FV.num 0)) = true := by
  by_cases hj : j < z.length
  · rw [List.getD_eq_getElem z (FV.num 0) hj]
    exact h _ (List.getElem_mem hj)
  · rw [List.getD_eq_default z (FV.num 0) (by omega)]
    rfl

theorem lfStep_allNum (bn an : List ℚ) (k : ℕ) (x : FV) (z : List FV)
    (hx : fvIsNum x = true) (hz : allNum z) :
    fvIsNum (lfStep bn an k x z).1 = true ∧ allNum (lfStep bn an k x z).2 := by
  constructor
  · exact fvAdd_isNum (fvMul_isNum (fvIsNum_num _) hx) (headD_allNum hz)
  · intro v hv
    rcases List.mem_map.1 hv with ⟨i, _, rfl⟩
    exact fvSub_isNum (fvAdd_isNum (fvMul_isNum (fvIsNum_num _) hx) (getD_allNum hz (i + 1)))
      (fvMul_isNum (fvIsNum_num _)
        (fvAdd_isNum (fvMul_isNum (fvIsNum_num _) hx) (headD_allNum hz)))

theorem lfilterGo_length (bn an : List ℚ) (k : ℕ) :
    ∀ (xs z : List FV), (lfilterGo bn an k z xs).length = xs.length := by
  intro xs
  induction xs with
  | nil => intro z; rfl
  | cons x xs ih => intro z; simp [lfilterGo, ih]

theorem lfilterGo_allNum (bn an : List ℚ) (k : ℕ) :
    ∀ (xs z : List FV), allNum xs → allNum z → allNum (lfilterGo bn an k z xs) := by
  intro xs
  induction xs with
  | nil => intro z _ _ v hv; simp [lfilterGo] at hv
  | cons x xs ih =>
    intro z hxs hz v hv
    have hx : fvIsNum x = true := hxs x (by simp)
    obtain ⟨hy, hz2⟩ := lfStep_allNum bn an k x z hx hz
    simp only [lfilterGo, List.mem_cons] at hv
    rcases hv with rfl | hv
    · exact hy
    · exact ih _ (fun w hw => hxs w (by simp [hw])) hz2 v hv

theorem lfilter_length (b a : List ℚ) (zi xs : List FV) :
    (lfilter b a zi xs).length = xs.length := by
  simp [lfilter, lfilterGo_length]

theorem lfilter_allNum (b a : List ℚ) (zi xs : List FV)
    (hxs : allNum xs) (hzi : allNum zi) : allNum (lfilter b a zi xs) :=
  lfilterGo_allNum _ _ _ xs zi hxs hzi

theorem oddExt_length (e : ℕ) (x : List FV) :
    (oddExt e x).length = e + x.length + e := by
  simp [oddExt]
  omega

theorem oddExt_allNum (e : ℕ) (x : List FV) (hx : allNum x) : allNum (oddExt e x) := by
  intro v hv
  simp only [oddExt, List.mem_append, List.mem_map, List.mem_range] at hv
  rcases hv with (⟨i, _, rfl⟩ | hv) | ⟨i, _, rfl⟩
  · exact fvSub_isNum (fvMul_isNum (fvIsNum_num _) (headD_allNum hx)) (getD_allNum hx _)
  · exact hx v hv
  · exact fvSub_isNum (fvMul_isNum (fvIsNum_num _) (getLastD_allNum hx)) (getD_allNum hx _)

theorem allNum_reverse {x : List FV} (hx : allNum x) : allNum x.reverse := by
  intro v hv
  exact hx v (List.mem_reverse.1 hv)

theorem allNum_map_num (f : ℕ → ℚ) (l : List ℕ) : allNum (l.map (fun i => FV.num (f i))) := by
  intro v hv
  rcases List.mem_map.1 hv with ⟨i, _, rfl⟩
  rfl

/-- filtfilt succeeds on inputs longer than padlen; it preserves the
length and, over exact arithmetic, keeps finite data finite. -/
theorem filtfilt_ok (c : Coeffs) (x : List FV)
    (hx : 3 * max c.a.length c.b.length < x.length) :
    ∃ y, filtfilt c x = Except.ok y ∧ y.length = x.length ∧ (allNum x → allNum y) := by
  have hne : ¬ (x.length ≤ 3 * max c.a.length c.b.length) := by omega
  simp only [filtfilt, if_neg hne]
  refine ⟨_, rfl, ?_, ?_⟩
  · simp [lfilter_length, oddExt_length]
  · intro hnum v hv
    have hext : allNum (oddExt (3 * max c.a.length c.b.length) x) := oddExt_allNum _ _ hnum
    have hzi1 : allNum (c.zi.map (fun q => fvMul (FV.num q)
        ((oddExt (3 * max c.a.length c.b.length) x).headD (FV.num 0)))) := by
      intro w hw
      rcases List.mem_map.1 hw with ⟨q, _, rfl⟩
      exact fvMul_isNum (fvIsNum_num _) (headD_allNum hext)
    have hy1 : allNum (lfilter c.b c.a (c.zi.map (fun q => fvMul (FV.num q)
        ((oddExt (3 * max c.a.length c.b.length) x).headD (FV.num 0))))
        (oddExt (3 * max c.a.length c.b.length) x)) :=
      lfilter_allNum _ _ _ _ hext hzi1
    have hzi2 : allNum (c.zi.map (fun q => fvMul (FV.num q)
        ((lfilter c.b c.a (c.zi.map (fun q => fvMul (FV.num q)
          ((oddExt (3 * max c.a.length c.b.length) x).headD (FV.num 0))))
          (oddExt (3 * max c.a.length c.b.length) x)).getLastD (FV.num 0)))) := by
      intro w hw
      rcases List.mem_map.1 hw with ⟨q, _, rfl⟩
      exact fvMul_isNum (fvIsNum_num _) (getLastD_allNum hy1)
    have hy2 : allNum ((lfilter c.b c.a (c.zi.map (fun q => fvMul (FV.num q)
        ((lfilter c.b c.a (c.zi.map (fun q => fvMul (FV.num q)
          ((oddExt (3 * max c.a.length c.b.length) x).headD (FV.num 0))))
          (oddExt (3 * max c.a.length c.b.length) x)).getLastD (FV.num 0))))
        ((lfilter c.b c.a (c.zi.map (fun q => fvMul (FV.num q)
          ((oddExt (3 * max c.a.length c.b.length) x).headD (FV.num 0))))
          (oddExt (3 * max c.a.length c.b.length) x)).reverse)).reverse) :=
      allNum_reverse (lfilter_allNum _ _ _ _ (allNum_reverse hy1) hzi2)
    exact hy2 v (List.mem_of_mem_drop (List.mem_of_mem_take hv))

/-! ### C9: band decomposition shape -/

theorem filtfilt_ok_inv (c : Coeffs) (x y : List FV)
    (h : filtfilt c x = Except.ok y) :
    y.length = x.length ∧ (allNum x → allNum y) := by
  by_cases hlen : x.length ≤ 3 * max c.a.length c.b.length
  · unfold filtfilt at h
    rw [if_pos hlen] at h
    exact Except.noConfusion h
  · obtain ⟨y2, hy2, hl, hn⟩ := filtfilt_ok c x (by omega)
    rw [h] at hy2
    injection hy2 with hy2
    rw [hy2]
    exact ⟨hl, hn⟩

theorem applyBandpassFilter_ok_inv (rate lo hi : ℚ) (design : ℚ → ℚ → Coeffs)
    (x y : List FV) (h : applyBandpassFilter rate design x lo hi = Except.ok y) :
    y.length = x.length ∧ (allNum x → allNum y) := by
  simp only [applyBandpassFilter] at h
  cases hbc : butterCheck (lo / (1 / 2 * rate)) (hi / (1 / 2 * rate)) with
  | error e =>
    rw [hbc, exBind_err] at h
    exact Except.noConfusion h
  | ok u =>
    rw [hbc, exBind_ok] at h
    exact filtfilt_ok_inv _ _ _ h

/-- C9 (confirmed): whenever extract_frequency_bands succeeds, the
result maps exactly the five canonical band names, in order, and every
band signal has the same length as the input (all signals implicitly
share the processor's single sampling rate — no per-signal rate exists
in the code). -/
theorem extractFrequencyBands_shape (rate : ℚ) (design : ℚ → ℚ → Coeffs)
    (x : List FV) (bands : List (String × List FV))
    (h : extractFrequencyBands rate design x = Except.ok bands) :
    bands.map Prod.fst = canonicalBands ∧ ∀ p ∈ bands, p.2.length = x.length := by
  simp only [extractFrequencyBands] at h
  cases h1 : applyBandpassFilter rate design x (1 / 2) 4 with
  | error e => rw [h1, exBind_err] at h; exact Except.noConfusion h
  | ok d =>
  rw [h1, exBind_ok] at h
  cases h2 : applyBandpassFilter rate design x 4 8 with
  | error e => rw [h2, exBind_err] at h; exact Except.noConfusion h
  | ok t =>
  rw [h2, exBind_ok] at h
  cases h3 : applyBandpassFilter rate design x 8 13 with
  | error e => rw [h3, exBind_err] at h; exact Except.noConfusion h
  | ok a =>
  rw [h3, exBind_ok] at h
  cases h4 : applyBandpassFilter rate design x 13 30 with
  | error e => rw [h4, exBind_err] at h; exact Except.noConfusion h
  | ok b =>
  rw [h4, exBind_ok] at h
  cases h5 : applyBandpassFilter rate design x 30 100 with
  | error e => rw [h5, exBind_err] at h; exact Except.noConfusion h
  | ok g =>
  rw [h5, exBind_ok, exPure] at h
  injection h with h
  subst h
  constructor
  · rfl
  · intro p hp
    simp only [List.mem_cons, List.not_mem_nil, or_false] at hp
    rcases hp with rfl | rfl | rfl | rfl | rfl
    · exact (applyBandpassFilter_ok_inv _ _ _ _ _ _ h1).1
    · exact (applyBandpassFilter_ok_inv _ _ _ _ _ _ h2).1
    · exact (applyBandpassFilter_ok_inv _ _ _ _ _ _ h3).1
    · exact (applyBandpassFilter_ok_inv _ _ _ _ _ _ h4).1
    · exact (applyBandpassFilter_ok_inv _ _ _ _ _ _ h5).1

/-! ### C10: the wave variable and non-canonical band names -/

theorem minmaxNorm_cons (x : FV) (xs : List FV) :
    minmaxNorm (x :: xs) = Except.ok ((x :: xs).map (fun v =>
      fvDiv (fvSub v (xs.foldl fvMin x)) (fvSub (xs.foldl fvMax x) (xs.foldl fvMin x)))) := rfl

/-- An iteration whose band name is not one of the five canonical names
leaves `wave` bound to the previous iteration's value and adds that
previous wave to the mix again — the iteration's own band data is
ignored entirely. -/
theorem multiBandStep_nonCanonical (cfg : SonCfg) (tAudio : List ℚ) (audio w : List FV)
    (i : ℕ) (name : String) (sig : List FV)
    (hname : name ∉ canonicalBands) (hsig : sig ≠ []) (htA : tAudio ≠ []) :
    multiBandStep cfg tAudio (audio, some w) (i, name, sig)
      = Except.ok (zipAdd audio w, some w) := by
  obtain ⟨a0, arest, rfl⟩ := List.exists_cons_of_ne_nil htA
  obtain ⟨s0, srest, rfl⟩ := List.exists_cons_of_ne_nil hsig
  simp only [canonicalBands, List.mem_cons, List.not_mem_nil, or_false, not_or] at hname
  obtain ⟨hn1, hn2, hn3, hn4, hn5⟩ := hname
  simp only [multiBandStep]
  have hInterp : npInterp (a0 :: arest) (timeAxis cfg.eegRate (s0 :: srest).length)
      (s0 :: srest) = Except.ok ((a0 :: arest).map
        (interpGo (timeAxis cfg.eegRate (s0 :: srest).length) (s0 :: srest))) := by
    unfold npInterp
    rw [if_neg]
    have hne2 : timeAxis cfg.eegRate (srest.length + 1) ≠ [] := timeAxis_ne_nil (by omega)
    simp [hne2]
  rw [hInterp, exBind_ok, List.map_cons, minmaxNorm_cons, exBind_ok,
    if_neg hn1, if_neg hn2, if_neg hn3, if_neg hn4, if_neg hn5]
  rfl

/-- Same situation on the first iteration: `wave` was never assigned,
so `audio_data += wave` raises UnboundLocalError. -/
theorem multiBandStep_nonCanonical_none (cfg : SonCfg) (tAudio : List ℚ) (audio : List FV)
    (i : ℕ) (name : String) (sig : List FV)
    (hname : name ∉ canonicalBands) (hsig : sig ≠ []) (htA : tAudio ≠ []) :
    multiBandStep cfg tAudio (audio, none) (i, name, sig)
      = Except.error NpErr.unboundLocal := by
  obtain ⟨a0, arest, rfl⟩ := List.exists_cons_of_ne_nil htA
  obtain ⟨s0, srest, rfl⟩ := List.exists_cons_of_ne_nil hsig
  simp only [canonicalBands, List.mem_cons, List.not_mem_nil, or_false, not_or] at hname
  obtain ⟨hn1, hn2, hn3, hn4, hn5⟩ := hname
  simp only [multiBandStep]
  have hInterp : npInterp (a0 :: arest) (timeAxis cfg.eegRate (s0 :: srest).length)
      (s0 :: srest) = Except.ok ((a0 :: arest).map
        (interpGo (timeAxis cfg.eegRate (s0 :: srest).length) (s0 :: srest))) := by
    unfold npInterp
    rw [if_neg]
    have hne2 : timeAxis cfg.eegRate (srest.length + 1) ≠ [] := timeAxis_ne_nil (by omega)
    simp [hne2]
  rw [hInterp, exBind_ok, List.map_cons, minmaxNorm_cons, exBind_ok,
    if_neg hn1, if_neg hn2, if_neg hn3, if_neg hn4, if_neg hn5]

/-- A call whose first key is non-canonical dies with the
UnboundLocalError instead of returning a buffer. -/
theorem multiBand_nonCanonical_first (cfg : SonCfg) (hA : 1 ≤ cfg.audioRate)
    (name : String) (sig : List FV)
    (hname : name ∉ canonicalBands) (hsig : sig ≠ []) :
    multiBandSonification cfg [(name, sig)] = Except.error NpErr.unboundLocal := by
  have hN : 1 ≤ pyIntLen (10 * cfg.audioRate) := by
    unfold pyIntLen
    have h1 : (1 : ℤ) ≤ ⌊10 * cfg.audioRate⌋ := by
      rw [Int.le_floor]
      push_cast
      linarith
    omega
  have htA : timeAxis cfg.audioRate (pyIntLen (10 * cfg.audioRate)) ≠ [] :=
    timeAxis_ne_nil hN
  have hstep := multiBandStep_nonCanonical_none cfg
    (timeAxis cfg.audioRate (pyIntLen (10 * cfg.audioRate)))
    (List.replicate (pyIntLen (10 * cfg.audioRate)) (FV.num 0)) 0 name sig hname hsig htA
  simp only [multiBandSonification]
  have henum : ([(name, sig)] : List (String × List FV)).enum = [(0, (name, sig))] := rfl
  rw [henum, List.foldlM_cons, hstep, exBind_err, exBind_err]

/-! ### Simulator support lemmas (C6, C7, C8) -/

theorem npLinspace_length (a b : ℚ) (m : ℕ) : (npLinspace a b m).length = m := by
  unfold npLinspace
  by_cases h0 : m = 0
  · simp [h0]
  · by_cases h1 : m = 1
    · simp [h0, h1]
    · simp [h0, h1]

theorem ampEnvelope_length (n : ℕ) : (ampEnvelope n).length = n := by
  unfold ampEnvelope
  by_cases h : (npLinspace 0 1 (n / 5) ++ List.replicate (3 * n / 5) 1
      ++ npLinspace 1 0 (n / 5)).length < n
  · rw [if_pos h]
    simp only [List.length_append, npLinspace_length, List.length_replicate] at h ⊢
    omega
  · rw [if_neg h]
    simp only [List.length_take, List.length_append, npLinspace_length,
      List.length_replicate] at h ⊢
    omega

theorem simTime_length (cfg : SimCfg) :
    (simTime cfg).length = arangeLen cfg.duration (fl64Pair 1 cfg.rate) := by
  simp only [simTime, npArange, List.length_map, List.length_range]

theorem noiseDraw_length (cfg : SimCfg) (k : ℕ) :
    (noiseDraw cfg k).length = (simTime cfg).length := by
  simp [noiseDraw]

theorem butterCheck_valid (rate lo hi : ℚ) (h0 : 0 < lo) (h1 : lo < hi)
    (h2 : hi < rate / 2) :
    butterCheck (lo / (1 / 2 * rate)) (hi / (1 / 2 * rate)) = Except.ok () := by
  have hny : 0 < (1 / 2 : ℚ) * rate := by linarith
  have hc1 : ¬(lo / (1 / 2 * rate) ≤ 0 ∨ hi / (1 / 2 * rate) ≤ 0) := by
    push_neg
    exact ⟨div_pos h0 hny, div_pos (lt_trans h0 h1) hny⟩
  have hc2 : ¬(hi / (1 / 2 * rate) ≤ lo / (1 / 2 * rate)) := by
    push_neg
    exact (div_lt_div_iff_of_pos_right hny).2 h1
  have hc3 : ¬((1 : ℚ) ≤ lo / (1 / 2 * rate) ∨ (1 : ℚ) ≤ hi / (1 / 2 * rate)) := by
    push_neg
    constructor
    · rw [div_lt_one hny]
      linarith
    · rw [div_lt_one hny]
      linarith
  unfold butterCheck
  rw [if_neg hc1, if_neg hc2, if_neg hc3]

theorem generateBandLimitedNoise_ok (rate : ℚ) (design : ℚ → ℚ → Coeffs)
    (noise : List ℚ) (lo hi amp : ℚ) (h0 : 0 < lo) (h1 : lo < hi) (h2 : hi < rate / 2)
    (hpad : 3 * max (design lo hi).a.length (design lo hi).b.length < noise.length) :
    ∃ y, generateBandLimitedNoise rate design noise lo hi amp = Except.ok y ∧
      y.length = noise.length ∧ allNum y := by
  obtain ⟨z, hz, hzl, hzn⟩ := filtfilt_ok (design lo hi) (noise.map FV.num) (by
    simpa using hpad)
  refine ⟨z.map (fun v => fvMul v (FV.num amp)), ?_, ?_, ?_⟩
  · simp only [generateBandLimitedNoise]
    rw [butterCheck_valid rate lo hi h0 h1 h2, exBind_ok, hz, exBind_ok]
    rfl
  · simp [hzl]
  · intro v hv
    rcases List.mem_map.1 hv with ⟨w, hw, rfl⟩
    exact fvMul_isNum (hzn (by
      intro u hu
      rcases List.mem_map.1 hu with ⟨q, _, rfl⟩
      rfl) w hw) (fvIsNum_num _)

theorem zipAdd_allNum {a b : List FV} : allNum a → allNum b → allNum (zipAdd a b) := by
  induction a generalizing b with
  | nil => intro _ _ v hv; simp [zipAdd] at hv
  | cons x xs ih =>
    intro ha hb v hv
    cases b with
    | nil => simp [zipAdd] at hv
    | cons y ys =>
      simp only [zipAdd, List.zipWith_cons_cons, List.mem_cons] at hv
      rcases hv with rfl | hv
      · exact fvAdd_isNum (ha x (by simp)) (hb y (by simp))
      · exact ih (fun w hw => ha w (by simp [hw])) (fun w hw => hb w (by simp [hw])) v hv

theorem setSlice_length (l : List FV) (i : ℕ) (vals : List FV)
    (h : i + vals.length ≤ l.length) : (setSlice l i vals).length = l.length := by
  simp [setSlice]
  omega

theorem setSlice_allNum {l vals : List FV} (hl : allNum l) (hv : allNum vals) (i : ℕ) :
    allNum (setSlice l i vals) := by
  intro v hmem
  simp only [setSlice, List.mem_append] at hmem
  rcases hmem with (h | h) | h
  · exact hl v (List.mem_of_mem_take h)
  · exact hv v h
  · exact hl v (List.mem_of_mem_drop h)

theorem allNum_replicate_zero (n : ℕ) : allNum (List.replicate n (FV.num 0)) := by
  intro v hv
  rw [List.eq_of_mem_replicate hv]
  rfl

/-- Folding pulse/burst insertions over onset positions preserves the
buffer length and finiteness. -/
theorem fold_addSlices_shape (n : ℕ) (vals : List FV) (hvals : allNum vals) :
    ∀ (ts : List ℕ), (∀ t ∈ ts, t + vals.length ≤ n) →
    ∀ (init : List FV), init.length = n → allNum init →
    (ts.foldl (fun e t => zipAdd e (setSlice (List.replicate n (FV.num 0)) t vals))
        init).length = n
    ∧ allNum (ts.foldl (fun e t =>
        zipAdd e (setSlice (List.replicate n (FV.num 0)) t vals)) init) := by
  intro ts
  induction ts with
  | nil => intro _ init hlen hnum; exact ⟨hlen, hnum⟩
  | cons t ts ih =>
    intro hts init hlen hnum
    have hslice_len : (setSlice (List.replicate n (FV.num 0)) t vals).length = n := by
      rw [setSlice_length]
      · simp
      · simp
        exact hts t (by simp)
    have hslice_num : allNum (setSlice (List.replicate n (FV.num 0)) t vals) :=
      setSlice_allNum (allNum_replicate_zero n) hvals t
    have hnext_len : (zipAdd init (setSlice (List.replicate n (FV.num 0)) t vals)).length
        = n := by
      rw [zipAdd_length, hlen, hslice_len]
      simp
    have hnext_num : allNum (zipAdd init (setSlice (List.replicate n (FV.num 0)) t vals)) :=
      zipAdd_allNum hnum hslice_num
    simpa using ih (fun u hu => hts u (by simp [hu])) _ hnext_len hnext_num

theorem vertexPulse_length (cfg : SimCfg) : (vertexPulse cfg).length = 50 := by
  simp [vertexPulse]

theorem vertexPulse_allNum (cfg : SimCfg) : allNum (vertexPulse cfg) := by
  intro v hv
  rcases List.mem_map.1 hv with ⟨j, _, rfl⟩
  rfl

theorem sawtoothBurst_length (cfg : SimCfg) : (sawtoothBurst cfg).length = 100 := by
  simp [sawtoothBurst, npLinspace_length]

theorem sawtoothBurst_allNum (cfg : SimCfg) : allNum (sawtoothBurst cfg) := by
  intro v hv
  rcases List.mem_map.1 hv with ⟨j, _, rfl⟩
  rfl

theorem seizureSpike_length (cfg : SimCfg) (width : ℕ) :
    (seizureSpike cfg width).length = 2 * width := by
  simp [seizureSpike]

theorem seizureSpike_allNum (cfg : SimCfg) (width : ℕ) : allNum (seizureSpike cfg width) := by
  intro v hv
  rcases List.mem_map.1 hv with ⟨j, _, rfl⟩
  rfl

theorem zipMulQ_length (a : List FV) (env : List ℚ) :
    (zipMulQ a env).length = min a.length env.length := by
  simp [zipMulQ]

theorem zipMulQ_allNum {a : List FV} (env : List ℚ) (ha : allNum a) :
    allNum (zipMulQ a env) := by
  induction a generalizing env with
  | nil => intro v hv; simp [zipMulQ] at hv
  | cons x xs ih =>
    intro v hv
    cases env with
    | nil => simp [zipMulQ] at hv
    | cons q qs =>
      simp only [zipMulQ, List.zipWith_cons_cons, List.mem_cons] at hv
      rcases hv with rfl | hv
      · exact fvMul_isNum (ha x (by simp)) (fvIsNum_num _)
      · exact ih qs (fun w hw => ha w (by simp [hw])) v hv

theorem seizureStep_shape (cfg : SimCfg) (n width : ℕ) (c : List FV) (i : ℕ)
    (hc : c.length = n) (hcn : allNum c) :
    (seizureStep cfg n width c i).length = n ∧ allNum (seizureStep cfg n width c i) := by
  unfold seizureStep
  by_cases h : i * cfg.rate / 3 < width ∨ n ≤ i * cfg.rate / 3 + width ∨ width = 0
  · rw [if_pos h]
    exact ⟨hc, hcn⟩
  · rw [if_neg h]
    push_neg at h
    obtain ⟨h1, h2, h3⟩ := h
    have hslice_len : (setSlice (List.replicate n (FV.num 0)) (i * cfg.rate / 3 - width)
        (seizureSpike cfg width)).length = n := by
      rw [setSlice_length]
      · simp
      · simp [seizureSpike_length]
        omega
    constructor
    · rw [zipAdd_length, hc, hslice_len]
      simp
    · exact zipAdd_allNum hcn
        (setSlice_allNum (allNum_replicate_zero n) (seizureSpike_allNum cfg width) _)

theorem foldl_seizureStep_shape (cfg : SimCfg) (n width : ℕ) :
    ∀ (idxs : List ℕ) (init : List FV), init.length = n → allNum init →
      ((idxs.foldl (seizureStep cfg n width) init).length = n
      ∧ allNum (idxs.foldl (seizureStep cfg n width) init)) := by
  intro idxs
  induction idxs with
  | nil => intro init hl hn; exact ⟨hl, hn⟩
  | cons i is ih =>
    intro init hl hn
    obtain ⟨hl2, hn2⟩ := seizureStep_shape cfg n width init i hl hn
    simpa using ih _ hl2 hn2

/-! ### C6: generator sample counts and finiteness -/

/-- C6 (amended): with any injected noise draws, any onset draws
obeying np.random.choice's guarantees, and any finite Butterworth
design whose padlen is below the signal length (scipy's digital designs
always have 9 coefficients per vector, i.e. padlen 27, and a normalised
a[0] = 1 — `ha0` records the latter, which the exact-arithmetic model
needs to mirror IEEE division faithfully), all five per-state
generators return a signal of exactly len(self.time) =
ceil(duration / float64(1/rate)) samples containing no NaN or Inf
values.  That count equals rate*duration at most rates, but exceeds it
by one whenever the rounded binary64 step divides duration with a
sliver of excess — 103 Hz for 7 s gives 722 samples, not
round(103*7) = 721 — so the count round(rate*duration) the claim
states is not in general what the program produces. -/
theorem generators_length_finite (cfg : SimCfg) (pos1 pos2 : List ℕ)
    (hr : 61 ≤ cfg.rate) (hn108 : 108 ≤ (simTime cfg).length)
    (hpad : ∀ lo hi : ℚ, 3 * max ((cfg.design lo hi).a.length) ((cfg.design lo hi).b.length)
      < (simTime cfg).length)
    (ha0 : ∀ lo hi : ℚ, (cfg.design lo hi).a.headI ≠ 0)
    (hpos1 : ∀ t ∈ pos1, t < (simTime cfg).length - 50)
    (hpos2 : ∀ t ∈ pos2, t < (simTime cfg).length - 100) :
    (∃ l, generateNormalEeg cfg = Except.ok l
      ∧ l.length = (simTime cfg).length ∧ allNum l)
    ∧ (∃ l, generateSleepStageN1 cfg pos1 = Except.ok l
      ∧ l.length = (simTime cfg).length ∧ allNum l)
    ∧ (∃ l, generateSleepStageN3 cfg = Except.ok l
      ∧ l.length = (simTime cfg).length ∧ allNum l)
    ∧ (∃ l, generateRemSleep cfg pos2 = Except.ok l
      ∧ l.length = (simTime cfg).length ∧ allNum l)
    ∧ (∃ l, generateSeizureActivity cfg = Except.ok l
      ∧ l.length = (simTime cfg).length ∧ allNum l) := by
  have hrQ : (61 : ℚ) ≤ (cfg.rate : ℚ) := by exact_mod_cast hr
  have hband : ∀ (k : ℕ) (lo hi amp : ℚ), 0 < lo → lo < hi → hi < (cfg.rate : ℚ) / 2 →
      ∃ y, generateBandLimitedNoise cfg.rate cfg.design (noiseDraw cfg k) lo hi amp
        = Except.ok y ∧ y.length = (simTime cfg).length ∧ allNum y := by
    intro k lo hi amp h0 h1 h2
    obtain ⟨y, hy, hl, hnum⟩ := generateBandLimitedNoise_ok cfg.rate cfg.design
      (noiseDraw cfg k) lo hi amp h0 h1 h2
      (by rw [noiseDraw_length]; exact hpad lo hi)
    exact ⟨y, hy, by rw [hl, noiseDraw_length], hnum⟩
  refine ⟨?_, ?_, ?_, ?_, ?_⟩
  · -- Normal Awake
    obtain ⟨yd, hdE, hdL, hdN⟩ := hband 0 (1 / 2) 4 (3 / 10) (by norm_num) (by norm_num)
      (by linarith)
    obtain ⟨yt, htE, htL, htN⟩ := hband 1 4 8 (2 / 5) (by norm_num) (by norm_num) (by linarith)
    obtain ⟨ya, haE, haL, haN⟩ := hband 2 8 13 1 (by norm_num) (by norm_num) (by linarith)
    obtain ⟨yb, hbE, hbL, hbN⟩ := hband 3 13 30 (1 / 5) (by norm_num) (by norm_num)
      (by linarith)
    refine ⟨zipAdd (zipAdd (zipAdd yd yt) ya) yb, ?_, ?_, ?_⟩
    · simp only [generateNormalEeg]
      rw [hdE, exBind_ok, htE, exBind_ok, haE, exBind_ok, hbE, exBind_ok]
      rfl
    · simp [zipAdd_length, hdL, htL, haL, hbL]
    · exact zipAdd_allNum (zipAdd_allNum (zipAdd_allNum hdN htN) haN) hbN
  · -- Sleep Stage N1
    obtain ⟨yt, htE, htL, htN⟩ := hband 0 4 8 1 (by norm_num) (by norm_num) (by linarith)
    obtain ⟨ya, haE, haL, haN⟩ := hband 1 8 13 (3 / 10) (by norm_num) (by norm_num)
      (by linarith)
    have hbase_len : (zipAdd yt ya).length = (simTime cfg).length := by
      rw [zipAdd_length, htL, haL]
      simp
    obtain ⟨hfl, hfn⟩ := fold_addSlices_shape (simTime cfg).length (vertexPulse cfg)
      (vertexPulse_allNum cfg) pos1
      (by
        intro t ht
        rw [vertexPulse_length]
        have := hpos1 t ht
        omega)
      (zipAdd yt ya) hbase_len (zipAdd_allNum htN haN)
    refine ⟨_, ?_, hfl, hfn⟩
    simp only [generateSleepStageN1]
    rw [htE, exBind_ok, haE, exBind_ok]
    rw [if_neg (by omega : ¬((simTime cfg).length < 55))]
    rfl
  · -- Slow Wave Sleep N3
    obtain ⟨yd, hdE, hdL, hdN⟩ := hband 0 (1 / 2) 4 2 (by norm_num) (by norm_num) (by linarith)
    obtain ⟨yt, htE, htL, htN⟩ := hband 1 4 8 (3 / 10) (by norm_num) (by norm_num)
      (by linarith)
    refine ⟨zipAdd yd yt, ?_, ?_, ?_⟩
    · simp only [generateSleepStageN3]
      rw [hdE, exBind_ok, htE, exBind_ok]
      rfl
    · simp [zipAdd_length, hdL, htL]
    · exact zipAdd_allNum hdN htN
  · -- REM Sleep
    obtain ⟨yt, htE, htL, htN⟩ := hband 0 4 8 1 (by norm_num) (by norm_num) (by linarith)
    obtain ⟨ya, haE, haL, haN⟩ := hband 1 8 13 (1 / 5) (by norm_num) (by norm_num)
      (by linarith)
    obtain ⟨yb, hbE, hbL, hbN⟩ := hband 2 13 30 (3 / 10) (by norm_num) (by norm_num)
      (by linarith)
    have hbase_len : (zipAdd (zipAdd yt ya) yb).length = (simTime cfg).length := by
      rw [zipAdd_length, zipAdd_length, htL, haL, hbL]
      simp
    obtain ⟨hfl, hfn⟩ := fold_addSlices_shape (simTime cfg).length (sawtoothBurst cfg)
      (sawtoothBurst_allNum cfg) pos2
      (by
        intro t ht
        rw [sawtoothBurst_length]
        have := hpos2 t ht
        omega)
      (zipAdd (zipAdd yt ya) yb) hbase_len (zipAdd_allNum (zipAdd_allNum htN haN) hbN)
    refine ⟨_, ?_, hfl, hfn⟩
    simp only [generateRemSleep]
    rw [htE, exBind_ok, haE, exBind_ok, hbE, exBind_ok]
    rw [if_neg (by omega : ¬((simTime cfg).length < 108))]
    rfl
  · -- Seizure Activity
    obtain ⟨yb, hbE, hbL, hbN⟩ := hband 0 (1 / 2) 30 (1 / 5) (by norm_num) (by norm_num)
      (by linarith)
    obtain ⟨hcl, hcn⟩ := foldl_seizureStep_shape cfg (simTime cfg).length (cfg.rate / 20)
      (List.range (cfg.duration * 3)) (List.replicate (simTime cfg).length (FV.num 0))
      (by simp) (allNum_replicate_zero _)
    refine ⟨zipAdd yb ((zipMulQ ((List.range (cfg.duration * 3)).foldl
      (seizureStep cfg (simTime cfg).length (cfg.rate / 20))
      (List.replicate (simTime cfg).length (FV.num 0)))
      (ampEnvelope (simTime cfg).length)).map (fun v => fvMul v (FV.num 3))), ?_, ?_, ?_⟩
    · simp only [generateSeizureActivity]
      rw [hbE, exBind_ok]
      rfl
    · rw [zipAdd_length, hbL]
      simp [zipMulQ_length, hcl, ampEnvelope_length]
    · refine zipAdd_allNum hbN ?_
      intro v hv
      rcases List.mem_map.1 hv with ⟨w, hw, rfl⟩
      exact fvMul_isNum (zipMulQ_allNum _ hcn w hw) (fvIsNum_num _)

/-! ### C7: N1 vertex-wave pulses -/

/-- The pulse contribution the amended C7 claims at sample j: the sum
over drawn onsets t whose width-50 window covers j of
gaussian(50,10)[j-t] * 2.  This definition is written from the claim's
words, to be compared with generate_sleep_stage_n1's translated loop. -/
def specPulseContribution (g : ℕ → ℚ) (pos : List ℕ) (j : ℕ) : ℚ :=
  (pos.map (fun t => if t ≤ j ∧ j < t + 50 then g (j - t) * 2 else 0)).sum

theorem getD_replicate_zero (n j : ℕ) :
    (List.replicate n (FV.num 0)).getD j (FV.num 0) = FV.num 0 := by
  by_cases hj : j < n
  · rw [List.getD_eq_getElem _ _ (by simpa using hj)]
    simp
  · exact List.getD_eq_default _ _ (by simpa using hj)

theorem zipAdd_getD (a b : List FV) (j : ℕ) (hj : j < a.length)
    (hab : a.length = b.length) :
    (zipAdd a b).getD j (FV.num 0) = fvAdd (a.getD j (FV.num 0)) (b.getD j (FV.num 0)) := by
  have hj2 : j < (zipAdd a b).length := by
    rw [zipAdd_length]
    omega
  rw [List.getD_eq_getElem _ _ hj2, List.getD_eq_getElem _ _ hj,
    List.getD_eq_getElem _ _ (by omega : j < b.length)]
  exact List.getElem_zipWith

theorem setSlice_zeros_getD (n t : ℕ) (vals : List FV) (j : ℕ) (hj : j < n)
    (ht : t + vals.length ≤ n) :
    (setSlice (List.replicate n (FV.num 0)) t vals).getD j (FV.num 0)
      = if t ≤ j ∧ j < t + vals.length then vals.getD (j - t) (FV.num 0) else FV.num 0 := by
  unfold setSlice
  have htake : (List.replicate n (FV.num 0)).take t = List.replicate t (FV.num 0) := by
    rw [List.take_replicate]
    congr 1
    omega
  rw [htake]
  by_cases h1 : j < t
  · rw [List.getD_append _ _ _ _ (by simp [List.length_append]; omega)]
    rw [List.getD_append _ _ _ _ (by simp; omega)]
    rw [if_neg (by omega)]
    exact getD_replicate_zero t j
  · by_cases h2 : j < t + vals.length
    · rw [List.getD_append _ _ _ _ (by simp [List.length_append]; omega)]
      rw [List.getD_append_right _ _ _ _ (by simp; omega)]
      rw [if_pos ⟨by omega, h2⟩]
      congr 1
      simp
    · rw [List.getD_append_right _ _ _ _ (by simp [List.length_append]; omega)]
      rw [if_neg (by omega)]
      have hdrop : List.drop (t + vals.length) (List.replicate n (FV.num 0))
          = List.replicate (n - (t + vals.length)) (FV.num 0) := by
        simp
      rw [hdrop]
      exact getD_replicate_zero _ _

theorem vertexPulse_getD (cfg : SimCfg) (k : ℕ) (hk : k < 50) :
    (vertexPulse cfg).getD k (FV.num 0) = FV.num (cfg.gaussN1Q k * 2) := by
  rw [List.getD_eq_getElem _ _ (by simp [vertexPulse_length]; omega)]
  simp only [vertexPulse, List.getElem_map, List.getElem_range]
  rfl

/-- Per-sample characterisation of the N1 pulse loop: after folding all
pulse insertions, sample j holds the base value plus the sum of the
pulse windows that cover j. -/
theorem fold_pulse_getD (cfg : SimCfg) (n j : ℕ) (hj : j < n) :
    ∀ (ts : List ℕ), (∀ t ∈ ts, t + 50 ≤ n) → ∀ (init : List FV), init.length = n →
    (ts.foldl (fun e t =>
        zipAdd e (setSlice (List.replicate n (FV.num 0)) t (vertexPulse cfg))) init).getD j
        (FV.num 0)
      = fvAdd (init.getD j (FV.num 0)) (FV.num (specPulseContribution cfg.gaussN1Q ts j)) := by
  intro ts
  induction ts with
  | nil =>
    intro _ init _
    simp only [List.foldl_nil, specPulseContribution, List.map_nil, List.sum_nil]
    exact (fvAdd_zero_right _).symm
  | cons t ts ih =>
    intro hts init hlen
    have ht50 : t + 50 ≤ n := hts t (by simp)
    have hslice_len : (setSlice (List.replicate n (FV.num 0)) t (vertexPulse cfg)).length
        = n := by
      rw [setSlice_length]
      · simp
      · simp [vertexPulse_length]
        omega
    have hnext_len : (zipAdd init (setSlice (List.replicate n (FV.num 0)) t
        (vertexPulse cfg))).length = n := by
      rw [zipAdd_length, hlen, hslice_len]
      simp
    rw [List.foldl_cons, ih (fun u hu => hts u (by simp [hu])) _ hnext_len]
    rw [zipAdd_getD _ _ j (by omega) (by rw [hlen, hslice_len])]
    rw [setSlice_zeros_getD n t _ j hj (by rw [vertexPulse_length]; omega)]
    have hcontrib : (if t ≤ j ∧ j < t + (vertexPulse cfg).length
        then (vertexPulse cfg).getD (j - t) (FV.num 0) else FV.num 0)
        = FV.num (if t ≤ j ∧ j < t + 50 then cfg.gaussN1Q (j - t) * 2 else 0) := by
      rw [vertexPulse_length]
      by_cases hc : t ≤ j ∧ j < t + 50
      · rw [if_pos hc, if_pos hc, vertexPulse_getD cfg (j - t) (by omega)]
      · rw [if_neg hc, if_neg hc]
    rw [hcontrib, fvAdd_num_assoc]
    simp only [specPulseContribution, List.map_cons, List.sum_cons]

/-- C7 (amended): the N1 generator adds exactly the five drawn vertex
waves — at sample j the output is theta+alpha plus the summed
contribution of every drawn width-50 window covering j.  The onsets
(np.random.choice(len(time)-50, 5, replace=False), injected here with
its postconditions as hypotheses) are distinct and drawn from indices
excluding the last 50 samples, but nothing prevents two onsets closer
than 50 samples, so the windows may overlap. -/
theorem n1_pulse_structure (cfg : SimCfg) (pos : List ℕ)
    (hr : 27 ≤ cfg.rate) (hn55 : 55 ≤ (simTime cfg).length)
    (hpad : ∀ lo hi : ℚ, 3 * max ((cfg.design lo hi).a.length) ((cfg.design lo hi).b.length)
      < (simTime cfg).length)
    (hlen5 : pos.length = 5) (hnodup : pos.Nodup)
    (hpos : ∀ t ∈ pos, t < (simTime cfg).length - 50) :
    ∃ yt ya l,
      generateBandLimitedNoise cfg.rate cfg.design (noiseDraw cfg 0) 4 8 1 = Except.ok yt
      ∧ generateBandLimitedNoise cfg.rate cfg.design (noiseDraw cfg 1) 8 13 (3 / 10)
        = Except.ok ya
      ∧ generateSleepStageN1 cfg pos = Except.ok l
      ∧ l.length = (simTime cfg).length
      ∧ ∀ j, j < (simTime cfg).length →
          l.getD j (FV.num 0) = fvAdd ((zipAdd yt ya).getD j (FV.num 0))
            (FV.num (specPulseContribution cfg.gaussN1Q pos j)) := by
  have hrQ : (27 : ℚ) ≤ (cfg.rate : ℚ) := by exact_mod_cast hr
  have hband : ∀ (k : ℕ) (lo hi amp : ℚ), 0 < lo → lo < hi → hi < (cfg.rate : ℚ) / 2 →
      ∃ y, generateBandLimitedNoise cfg.rate cfg.design (noiseDraw cfg k) lo hi amp
        = Except.ok y ∧ y.length = (simTime cfg).length ∧ allNum y := by
    intro k lo hi amp h0 h1 h2
    obtain ⟨y, hy, hl, hnum⟩ := generateBandLimitedNoise_ok cfg.rate cfg.design
      (noiseDraw cfg k) lo hi amp h0 h1 h2
      (by rw [noiseDraw_length]; exact hpad lo hi)
    exact ⟨y, hy, by rw [hl, noiseDraw_length], hnum⟩
  obtain ⟨yt, htE, htL, htN⟩ := hband 0 4 8 1 (by norm_num) (by norm_num) (by linarith)
  obtain ⟨ya, haE, haL, haN⟩ := hband 1 8 13 (3 / 10) (by norm_num) (by norm_num)
    (by linarith)
  have hbase_len : (zipAdd yt ya).length = (simTime cfg).length := by
    rw [zipAdd_length, htL, haL]
    simp
  refine ⟨yt, ya, pos.foldl (fun e t => zipAdd e (setSlice
    (List.replicate (simTime cfg).length (FV.num 0)) t (vertexPulse cfg)))
    (zipAdd yt ya), htE, haE, ?_, ?_, ?_⟩
  · simp only [generateSleepStageN1]
    rw [htE, exBind_ok, haE, exBind_ok]
    rw [if_neg (by omega : ¬((simTime cfg).length < 55))]
    rfl
  · exact (fold_addSlices_shape (simTime cfg).length (vertexPulse cfg)
      (vertexPulse_allNum cfg) pos
      (by
        intro t ht
        rw [vertexPulse_length]
        have := hpos t ht
        omega)
      (zipAdd yt ya) hbase_len (zipAdd_allNum htN haN)).1
  · intro j hj
    exact fold_pulse_getD cfg (simTime cfg).length j hj pos
      (by
        intro t ht
        have := hpos t ht
        omega)
      (zipAdd yt ya) hbase_len

/-! ### C8: the seizure amplitude envelope -/

theorem npLinspace_getD_zero (a b : ℚ) (m : ℕ) (hm : 1 ≤ m) :
    (npLinspace a b m).getD 0 0 = a := by
  unfold npLinspace
  by_cases h1 : m = 1
  · simp [h1]
  · rw [if_neg (by omega), if_neg h1]
    rw [List.getD_eq_getElem _ _ (by simp; omega)]
    simp

theorem npLinspace_getD_last (a b : ℚ) (m : ℕ) (hm : 2 ≤ m) :
    (npLinspace a b m).getD (m - 1) 0 = b := by
  unfold npLinspace
  rw [if_neg (by omega), if_neg (by omega)]
  rw [List.getD_eq_getElem _ _ (by simp; omega)]
  simp only [List.getElem_map, List.getElem_range]
  have hcast : ((m - 1 : ℕ) : ℚ) = (m : ℚ) - 1 := by
    push_cast [Nat.cast_sub (by omega : 1 ≤ m)]
    ring
  rw [hcast]
  have hne : (m : ℚ) - 1 ≠ 0 := by
    have h2 : (2 : ℚ) ≤ (m : ℚ) := by exact_mod_cast hm
    intro hc
    rw [sub_eq_zero] at hc
    rw [hc] at h2
    norm_num at h2
  field_simp

theorem getD_replicate_one (r j : ℕ) (hj : j < r) :
    (List.replicate r (1 : ℚ)).getD j 0 = 1 := by
  rw [List.getD_eq_getElem _ _ (by simpa using hj)]
  simp

/-- C8 (amended): for every n ≥ 6 the three-phase amplitude envelope of
the seizure generator, padded/truncated to exact length n, is 0 at
sample 0, 1 at the midpoint sample n/2, and exactly 0 at sample n-1
(via the final linspace sample when 5 divides n, via the zero padding
otherwise).  n = 5 is excluded: it is the one length with all three
phases non-empty where the final sample is 1, not 0. -/
theorem ampEnvelope_three_phase (n : ℕ) (hn : 6 ≤ n) :
    (ampEnvelope n).getD 0 0 = 0 ∧ (ampEnvelope n).getD (n / 2) 0 = 1
      ∧ (ampEnvelope n).getD (n - 1) 0 = 0 := by
  have hm1 : 1 ≤ n / 5 := by omega
  have hlen1 : (npLinspace 0 1 (n / 5)).length = n / 5 := npLinspace_length _ _ _
  have hlen3 : (npLinspace 1 0 (n / 5)).length = n / 5 := npLinspace_length _ _ _
  have hlen12 : (npLinspace 0 1 (n / 5) ++ List.replicate (3 * n / 5) (1 : ℚ)).length
      = n / 5 + 3 * n / 5 := by
    simp [npLinspace_length]
  have henvL : (npLinspace 0 1 (n / 5) ++ List.replicate (3 * n / 5) (1 : ℚ)
      ++ npLinspace 1 0 (n / 5)).length = n / 5 + 3 * n / 5 + n / 5 := by
    simp [npLinspace_length]
    omega
  have hget0 : (npLinspace 0 1 (n / 5) ++ List.replicate (3 * n / 5) (1 : ℚ)
      ++ npLinspace 1 0 (n / 5)).getD 0 0 = 0 := by
    rw [List.getD_append _ _ _ _ (by rw [hlen12]; omega)]
    rw [List.getD_append _ _ _ _ (by rw [hlen1]; omega)]
    exact npLinspace_getD_zero 0 1 _ hm1
  have hgetMid : (npLinspace 0 1 (n / 5) ++ List.replicate (3 * n / 5) (1 : ℚ)
      ++ npLinspace 1 0 (n / 5)).getD (n / 2) 0 = 1 := by
    rw [List.getD_append _ _ _ _ (by rw [hlen12]; omega)]
    rw [List.getD_append_right _ _ _ _ (by rw [hlen1]; omega)]
    rw [hlen1]
    exact getD_replicate_one _ _ (by omega)
  unfold ampEnvelope
  by_cases hpad : (npLinspace 0 1 (n / 5) ++ List.replicate (3 * n / 5) 1
      ++ npLinspace 1 0 (n / 5)).length < n
  · rw [if_pos hpad]
    rw [henvL] at hpad
    refine ⟨?_, ?_, ?_⟩
    · rw [List.getD_append _ _ _ _ (by rw [henvL]; omega)]
      exact hget0
    · rw [List.getD_append _ _ _ _ (by rw [henvL]; omega)]
      exact hgetMid
    · rw [List.getD_append_right _ _ _ _ (by rw [henvL]; omega)]
      by_cases hidx : n - 1 - (npLinspace 0 1 (n / 5) ++ List.replicate (3 * n / 5) (1 : ℚ)
          ++ npLinspace 1 0 (n / 5)).length < n - (npLinspace 0 1 (n / 5)
          ++ List.replicate (3 * n / 5) (1 : ℚ) ++ npLinspace 1 0 (n / 5)).length
      · rw [List.getD_eq_getElem _ _ (by simpa using hidx)]
        simp
      · exact List.getD_eq_default _ _ (by simpa using hidx)
  · rw [if_neg hpad]
    rw [henvL] at hpad
    have hL : n / 5 + 3 * n / 5 + n / 5 = n := by omega
    have hm2 : 2 ≤ n / 5 := by omega
    have htake : (npLinspace 0 1 (n / 5) ++ List.replicate (3 * n / 5) (1 : ℚ)
        ++ npLinspace 1 0 (n / 5)).take n = npLinspace 0 1 (n / 5)
        ++ List.replicate (3 * n / 5) (1 : ℚ) ++ npLinspace 1 0 (n / 5) :=
      List.take_of_length_le (by rw [henvL]; omega)
    rw [htake]
    refine ⟨hget0, hgetMid, ?_⟩
    rw [List.getD_append_right _ _ _ _ (by rw [hlen12]; omega)]
    rw [hlen12]
    have hidx : n - 1 - (n / 5 + 3 * n / 5) = n / 5 - 1 := by omega
    rw [hidx]
    exact npLinspace_getD_last 1 0 _ hm2

/-! ### Concrete instantiations used by witnesses and counterexamples -/

/-- A minimal sonifier configuration: 1 Hz audio and EEG rates (both
are ordinary constructor arguments), with zero stand-ins for the
opaque transcendental parameters; every NaN result below is
independent of these stand-ins. -/
def demoSonCfg : SonCfg := ⟨1, 1, 0, fun _ => 0, fun _ => 0, fun _ => 0, fun _ => 0, fun _ => 0⟩

/-- The identity filter (b = a = [1], no initial state) as a stand-in
Butterworth design output. -/
def demoDesign : ℚ → ℚ → Coeffs := fun _ _ => ⟨[1], [1], []⟩

/-- A simulator at 61 Hz for 2 s (122 samples) with zero noise. -/
def demoSimCfg : SimCfg :=
  ⟨61, 2, demoDesign, fun _ _ => 0, fun _ => 0, fun _ _ => 0, fun _ => 0, 0⟩

/-- A simulator at 103 Hz for 7 s: the binary64 step 1/103 rounds so
that 7/step lands a hair above 721, and np.arange emits 722 samples —
one more than rate*duration = 721. -/
def demoSimCfg103 : SimCfg :=
  ⟨103, 7, demoDesign, fun _ _ => 0, fun _ => 0, fun _ _ => 0, fun _ => 0, 0⟩

/-- A simulator at 55 Hz for 1 s: len(time) = 55, so the N1 generator's
np.random.choice(55-50, 5, replace=False) must return the onsets
{0,1,2,3,4} in some order, and the Gaussian window stand-in 10^j makes
each window's contribution a distinct power of ten. -/
def demoSimCfgN1 : SimCfg :=
  ⟨55, 1, demoDesign, fun _ _ => 0, fun j => 10 ^ j, fun _ _ => 0, fun _ => 0, 0⟩

/-- A sonifier configuration whose audio rate 1/10 Hz makes the fixed
10-second buffer a single sample, keeping concrete evaluations small. -/
def tinySonCfg : SonCfg := ⟨1 / 10, 1, 0, fun _ => 0, fun _ => 0, fun _ => 0, fun _ => 0,
  fun _ => 0⟩

/-! ### The claims -/

/-- C10 (confirmed): a waveform is computed only inside the five
name-checked branches.  A call whose first key is not canonical fails
with the UnboundLocalError instead of returning a buffer; and every
iteration with a non-canonical name after a wave has been bound ignores
its own band data entirely and adds the previous iteration's wave to
the mix a second time. -/
theorem waveBranch_behaviour :
    (∀ (cfg : SonCfg) (name : String) (sig : List FV), 1 ≤ cfg.audioRate →
      name ∉ canonicalBands → sig ≠ [] →
      multiBandSonification cfg [(name, sig)] = Except.error NpErr.unboundLocal)
    ∧ (∀ (cfg : SonCfg) (tAudio : List ℚ) (audio w : List FV) (i : ℕ) (name : String)
        (sig : List FV), name ∉ canonicalBands → sig ≠ [] → tAudio ≠ [] →
      multiBandStep cfg tAudio (audio, some w) (i, name, sig)
        = Except.ok (zipAdd audio w, some w)) :=
  ⟨fun cfg name sig hA hname hsig => multiBand_nonCanonical_first cfg hA name sig hname hsig,
   fun cfg tA audio w i name sig h1 h2 h3 =>
     multiBandStep_nonCanonical cfg tA audio w i name sig h1 h2 h3⟩

/-! ### Counterexamples -/

set_option maxHeartbeats 2000000 in
/-- Counterexample to C1 as stated: on the all-zero five-band
decomposition, multi_band_sonification returns a NaN-filled buffer, not
an all-zero one. -/
theorem c1_counterexample :
    multiBandSonification tinySonCfg
      [("delta", [FV.num 0]), ("theta", [FV.num 0]), ("alpha", [FV.num 0]),
       ("beta", [FV.num 0]), ("gamma", [FV.num 0])] = Except.ok [FV.nan] := by
  norm_num [multiBandSonification, multiBandStep, bandPhase, tinySonCfg, pyIntLen, timeAxis,
    List.range_succ, npInterp, interpGo, minmaxNorm, npMin, npMax, fvMin, fvMax, fvAbs,
    fvCumsum, fvAdd, fvSub, fvNeg, fvMul, fvDiv, liftNum, fvIsNan, List.enum, List.enumFrom,
    List.foldlM, exBind_ok, exBind_err, exPure, List.scanl, zipAdd]

/-- Counterexample to C2 as stated: on a constant input signal (whose
resampled buffer is therefore constant) the returned buffer is NaN, not
a tone built from a normalised value of 0. -/
theorem c2_counterexample :
    simpleToneMapping tinySonCfg [FV.num 5, FV.num 5] 10 = Except.ok [FV.nan] := by
  norm_num [simpleToneMapping, tinySonCfg, pyIntLen, timeAxis, List.range_succ, npInterp,
    interpGo, minmaxNorm, npMin, npMax, fvMin, fvMax, fvCumsum, fvAdd, fvSub, fvNeg, fvMul,
    fvDiv, liftNum, fvIsNan, exBind_ok, exBind_err, exPure, List.scanl]

/-- Counterexample to C4 as stated: multi_band_sonification on an empty
band decomposition does not fail with any condition — it silently
returns a NaN-filled buffer. -/
theorem c4_counterexample :
    multiBandSonification tinySonCfg [] = Except.ok [FV.nan] := by
  norm_num [multiBandSonification, tinySonCfg, pyIntLen, timeAxis, List.range_succ, npMax,
    fvMax, fvAbs, fvMul, fvDiv, exBind_ok, exBind_err, exPure, List.foldlM]

/-- Counterexample to C5 as stated: on a zero-variance signal the
Hjorth computation signals nothing — it silently returns
(0, NaN, NaN). -/
theorem c5_counterexample :
    computeHjorthParameters id [FV.num 1, FV.num 1] = (FV.num 0, FV.nan, FV.nan) := by
  norm_num [computeHjorthParameters, npVar, npDiff, fvSum, fvAdd, fvSub, fvNeg, fvMul,
    fvDiv, fvSqrt]

/-- Counterexample to C6 as stated: at the valid UI input of 103 Hz for
7 s the time axis np.arange(0, 7, 1/103) holds 722 samples, not
round(103*7) = 721 — the rounded binary64 step 1/103 divides 7 with a
sliver of excess, and numpy's ceil of the rounded quotient emits one
extra sample — and the N3 generator accordingly returns a 722-sample
signal. -/
theorem c6_counterexample :
    (simTime demoSimCfg103).length = 722
    ∧ demoSimCfg103.rate * demoSimCfg103.duration = 721
    ∧ ∃ l, generateSleepStageN3 demoSimCfg103 = Except.ok l ∧ l.length = 722 := by
  have h722 : (simTime demoSimCfg103).length = 722 := by
    rw [simTime_length]
    decide
  refine ⟨h722, by decide, ?_⟩
  have hnl : ∀ k : ℕ, (noiseDraw demoSimCfg103 k).length = 722 := fun k => by
    rw [noiseDraw_length, h722]
  obtain ⟨yd, hdE, hdL, _⟩ := generateBandLimitedNoise_ok demoSimCfg103.rate
    demoSimCfg103.design (noiseDraw demoSimCfg103 0) (1 / 2) 4 2 (by norm_num)
    (by norm_num) (by norm_num [demoSimCfg103])
    (by rw [hnl]; norm_num [demoSimCfg103, demoDesign])
  obtain ⟨yt, htE, htL, _⟩ := generateBandLimitedNoise_ok demoSimCfg103.rate
    demoSimCfg103.design (noiseDraw demoSimCfg103 1) 4 8 (3 / 10) (by norm_num)
    (by norm_num) (by norm_num [demoSimCfg103])
    (by rw [hnl]; norm_num [demoSimCfg103, demoDesign])
  refine ⟨zipAdd yd yt, ?_, ?_⟩
  · simp only [generateSleepStageN3]
    rw [hdE, exBind_ok, htE, exBind_ok]
    rfl
  · rw [zipAdd_length, hdL, htL, hnl, hnl]
    simp

/-- Counterexample to C7 as stated: at len(time) = 55 the choice
population is exactly {0,1,2,3,4}, so every run draws these five
distinct in-range onsets, whose width-50 windows are far from pairwise
disjoint; with the Gaussian-window stand-in 10^j, sample 1 of the pulse
loop receives 10*2 + 1*2 = 22 — the contributions of two overlapping
windows. -/
theorem c7_counterexample :
    ([0, 1, 2, 3, 4] : List ℕ).Nodup
    ∧ (∀ t ∈ ([0, 1, 2, 3, 4] : List ℕ), t < 55 - 50)
    ∧ ¬ (∀ t1 ∈ ([0, 1, 2, 3, 4] : List ℕ), ∀ t2 ∈ ([0, 1, 2, 3, 4] : List ℕ),
        t1 ≠ t2 → t1 + 50 ≤ t2 ∨ t2 + 50 ≤ t1)
    ∧ (([0, 1, 2, 3, 4] : List ℕ).foldl (fun e t => zipAdd e (setSlice
        (List.replicate 55 (FV.num 0)) t (vertexPulse demoSimCfgN1)))
        (List.replicate 55 (FV.num 0))).getD 1 (FV.num 0) = FV.num 22 := by
  refine ⟨by decide, by decide, by decide, ?_⟩
  rw [fold_pulse_getD demoSimCfgN1 55 1 (by norm_num) [0, 1, 2, 3, 4] (by decide)
    (List.replicate 55 (FV.num 0)) (by simp)]
  rw [getD_replicate_zero]
  norm_num [specPulseContribution, demoSimCfgN1, fvAdd]

/-- Counterexample to C8 as stated: n = 5 gives three non-empty phases
([0], [1,1,1], [1]) yet the envelope's last sample is 1 — full scale,
not at or near zero. -/
theorem c8_counterexample :
    1 ≤ 5 / 5 ∧ 1 ≤ 3 * 5 / 5 ∧ (ampEnvelope 5).getD (5 - 1) 0 = 1 := by
  refine ⟨by decide, by decide, ?_⟩
  norm_num [ampEnvelope, npLinspace, List.range_succ]

/-! ### Witnesses -/

theorem c1_witness :
    ∃ out, multiBandSonification demoSonCfg
        [("delta", [FV.num 0]), ("theta", [FV.num 0]), ("alpha", [FV.num 0]),
         ("beta", [FV.num 0]), ("gamma", [FV.num 0])] = Except.ok out
      ∧ out.length = pyIntLen (10 * demoSonCfg.audioRate) ∧ allNan out :=
  multiBand_allZero_nan demoSonCfg (by norm_num [demoSonCfg])
    [FV.num 0] [FV.num 0] [FV.num 0] [FV.num 0] [FV.num 0]
    (by simp) (by simp) (by simp) (by simp) (by simp) (by simp) (by simp) (by simp)
    (by simp) (by simp)

theorem c2_witness :
    ∃ out, simpleToneMapping demoSonCfg [FV.num 5, FV.num 5] 2 = Except.ok out
      ∧ out.length = pyIntLen (2 * demoSonCfg.audioRate) ∧ out ≠ [] ∧ allNan out :=
  simpleToneMapping_const_nan demoSonCfg 5 [FV.num 5, FV.num 5] 2 (by simp)
    (by simp) (by norm_num [demoSonCfg])

theorem c3_witness :
    (∃ e, applyBandpassFilter 256 demoDesign [] 8 130 = Except.error e)
    ∧ (∃ e, generateBandLimitedNoise 256 demoDesign [] 8 130 1 = Except.error e) :=
  bandpass_invalid_cutoffs 256 8 130 1 demoDesign [] [] (by norm_num) (by norm_num)

theorem c4_witness :
    (∀ duration : ℚ, simpleToneMapping demoSonCfg [] duration
      = Except.error NpErr.emptyInterp)
    ∧ (∀ (eeg : List FV) (duration : ℚ), eeg ≠ [] → duration ≤ 0 →
        simpleToneMapping demoSonCfg eeg duration = Except.error NpErr.emptyReduce)
    ∧ multiBandSonification demoSonCfg []
        = Except.ok (List.replicate (pyIntLen (10 * demoSonCfg.audioRate)) FV.nan) :=
  sonifier_degenerate_inputs demoSonCfg (by norm_num [demoSonCfg])

theorem c5_witness :
    computeHjorthParameters id (List.replicate 2 (FV.num 7))
      = (FV.num 0, FV.nan, FV.nan) :=
  hjorth_constant_nan id 2 7 (by norm_num)

theorem c6_witness :
    (∃ l, generateNormalEeg demoSimCfg = Except.ok l
      ∧ l.length = (simTime demoSimCfg).length ∧ allNum l)
    ∧ (∃ l, generateSleepStageN1 demoSimCfg [0, 1, 2, 3, 4] = Except.ok l
      ∧ l.length = (simTime demoSimCfg).length ∧ allNum l)
    ∧ (∃ l, generateSleepStageN3 demoSimCfg = Except.ok l
      ∧ l.length = (simTime demoSimCfg).length ∧ allNum l)
    ∧ (∃ l, generateRemSleep demoSimCfg [0, 1, 2, 3, 4, 5, 6, 7] = Except.ok l
      ∧ l.length = (simTime demoSimCfg).length ∧ allNum l)
    ∧ (∃ l, generateSeizureActivity demoSimCfg = Except.ok l
      ∧ l.length = (simTime demoSimCfg).length ∧ allNum l) :=
  generators_length_finite demoSimCfg [0, 1, 2, 3, 4] [0, 1, 2, 3, 4, 5, 6, 7]
    (by decide) (by decide)
    (fun lo hi => by
      show 3 * max 1 1 < (simTime demoSimCfg).length
      decide)
    (fun lo hi => by norm_num [demoSimCfg, demoDesign])
    (by decide) (by decide)

theorem c7_witness :
    ∃ yt ya l,
      generateBandLimitedNoise demoSimCfg.rate demoSimCfg.design (noiseDraw demoSimCfg 0)
        4 8 1 = Except.ok yt
      ∧ generateBandLimitedNoise demoSimCfg.rate demoSimCfg.design (noiseDraw demoSimCfg 1)
        8 13 (3 / 10) = Except.ok ya
      ∧ generateSleepStageN1 demoSimCfg [0, 1, 2, 3, 4] = Except.ok l
      ∧ l.length = (simTime demoSimCfg).length
      ∧ ∀ j, j < (simTime demoSimCfg).length →
          l.getD j (FV.num 0) = fvAdd ((zipAdd yt ya).getD j (FV.num 0))
            (FV.num (specPulseContribution demoSimCfg.gaussN1Q [0, 1, 2, 3, 4] j)) :=
  n1_pulse_structure demoSimCfg [0, 1, 2, 3, 4] (by decide) (by decide)
    (fun lo hi => by
      show 3 * max 1 1 < (simTime demoSimCfg).length
      decide)
    (by decide) (by decide) (by decide)

theorem c8_witness :
    (ampEnvelope 2560).getD 0 0 = 0 ∧ (ampEnvelope 2560).getD (2560 / 2) 0 = 1
      ∧ (ampEnvelope 2560).getD (2560 - 1) 0 = 0 :=
  ampEnvelope_three_phase 2560 (by norm_num)

set_option maxHeartbeats 2000000 in
theorem c9_witness :
    ([("delta", [FV.num 0, FV.num 0, FV.num 0, FV.num 0]),
      ("theta", [FV.num 0, FV.num 0, FV.num 0, FV.num 0]),
      ("alpha", [FV.num 0, FV.num 0, FV.num 0, FV.num 0]),
      ("beta", [FV.num 0, FV.num 0, FV.num 0, FV.num 0]),
      ("gamma", [FV.num 0, FV.num 0, FV.num 0, FV.num 0])] :
        List (String × List FV)).map Prod.fst = canonicalBands
    ∧ ∀ p ∈ ([("delta", [FV.num 0, FV.num 0, FV.num 0, FV.num 0]),
      ("theta", [FV.num 0, FV.num 0, FV.num 0, FV.num 0]),
      ("alpha", [FV.num 0, FV.num 0, FV.num 0, FV.num 0]),
      ("beta", [FV.num 0, FV.num 0, FV.num 0, FV.num 0]),
      ("gamma", [FV.num 0, FV.num 0, FV.num 0, FV.num 0])] :
        List (String × List FV)),
      p.2.length = ([FV.num 0, FV.num 0, FV.num 0, FV.num 0] : List FV).length :=
  extractFrequencyBands_shape 256 demoDesign [FV.num 0, FV.num 0, FV.num 0, FV.num 0] _
    (by
      norm_num [extractFrequencyBands, applyBandpassFilter, butterCheck, filtfilt, oddExt,
        lfilter, lfilterGo, lfStep, demoDesign, exBind_ok, exBind_err, exPure,
        List.range_succ, fvAdd, fvMul, fvSub, fvNeg, fvDiv])

theorem c10_witness :
    multiBandSonification demoSonCfg [("noise", [FV.num 0])]
      = Except.error NpErr.unboundLocal
    ∧ multiBandStep demoSonCfg [0] ([FV.num 0], some [FV.nan]) (1, "spindle", [FV.num 3])
      = Except.ok (zipAdd [FV.num 0] [FV.nan], some [FV.nan]) :=
  ⟨waveBranch_behaviour.1 demoSonCfg "noise" [FV.num 0] (by norm_num [demoSonCfg])
      (by decide) (by simp),
   waveBranch_behaviour.2 demoSonCfg [0] [FV.num 0] [FV.nan] 1 "spindle" [FV.num 3]
      (by decide) (by simp) (by simp)⟩

end EegSonify
